import Mathlib

/-!
Verification of the ggshield git commit/patch parser
(`ggshield/core/scan/commit.py`) against its natural-language
specification.

Python strings are modelled as `List Char`.  Fallible Python code
(exceptions) is modelled with `Except PyErr`; unconsumed laziness of the
generators is made explicit in `pairZip`, which decodes header segments
exactly when Python's `zip` would pull them from the
`_parse_patch_header` generator.
-/

set_option maxHeartbeats 1000000
set_option linter.unnecessarySeqFocus false

/-- Filemode enumeration.  Modelled from the spec: the source enum lives in
`ggshield.utils.git_shell`, outside the sampled files; the spec gives the
enumeration \x7bNEW, MODIFY, DELETE, RENAME\x7d. -/
inductive Filemode where
  | NEW
  | MODIFY
  | DELETE
  | RENAME
deriving DecidableEq

/-- FileRecord / StringScannable.  Modelled from the spec: the source class
lives in `ggshield.core.scan.scannable`, outside the sampled files; the spec
describes it as a filename (`path`), a diff body (`content`) and a
`Filemode`. -/
structure StringScannable where
  path : List Char
  content : List Char
  filemode : Filemode
deriving DecidableEq

/-- Python exceptions that can escape the parsing pipeline, carrying their
message text (`str(exc)`). -/
inductive PyErr where
  | valueError (msg : List Char)
  | indexError (msg : List Char)
  | patchParseError (msg : List Char)
deriving DecidableEq

/-- Message text of a Python exception, as interpolated by `f"{exc}"`. -/
def PyErr.message : PyErr → List Char
  | .valueError m => m
  | .indexError m => m
  | .patchParseError m => m

instance {ε α : Type} [DecidableEq ε] [DecidableEq α] : DecidableEq (Except ε α)
  | .ok a, .ok b =>
    if h : a = b then .isTrue (by rw [h]) else .isFalse (fun hh => h (Except.ok.inj hh))
  | .error e, .error f =>
    if h : e = f then .isTrue (by rw [h]) else .isFalse (fun hh => h (Except.error.inj hh))
  | .ok _, .error _ => .isFalse (fun hh => Except.noConfusion hh)
  | .error _, .ok _ => .isFalse (fun hh => Except.noConfusion hh)

/-- Python `s.rstrip("\0")`: remove all trailing NUL characters. -/
def rstripNul (s : List Char) : List Char :=
  (s.reverse.dropWhile (fun c => c = '\x00')).reverse

/-- Python `s.rstrip("0123456789")`: remove all trailing decimal digits. -/
def rstripDigits (s : List Char) : List Char :=
  (s.reverse.dropWhile (fun c => c.isDigit)).reverse

/-- Python `s.rsplit(" ", 1)[-1]`: the part of `s` after the last space
(all of `s` when it has no space). -/
def lastSpaceToken (s : List Char) : List Char :=
  (s.reverse.takeWhile (fun c => c ≠ ' ')).reverse

/-- Python `s.split(sep)` for a non-empty separator string: split on every
non-overlapping occurrence of `sep`, scanning left to right.  (Python
raises on an empty separator; all call sites here use fixed non-empty
separators, for which this function is never asked to split on `[]`.) -/
def splitGo (sep : List Char) : Nat → List Char → List (List Char)
  | _, [] => [[]]
  | skip + 1, _ :: cs => splitGo sep skip cs
  | 0, c :: cs =>
    if sep ≠ [] ∧ sep.isPrefixOf (c :: cs) then
      [] :: splitGo sep (sep.length - 1) cs
    else
      match splitGo sep 0 cs with
      | seg :: segs => (c :: seg) :: segs
      | [] => [[c]]

/-- Python `s.split(sep)`, via `splitGo` with no pending characters to
skip. -/
def splitOnSub (sep : List Char) (s : List Char) : List (List Char) :=
  splitGo sep 0 s

/-- Python `s.index(sub)` / `s.find(sub)`: index of the first occurrence of
`sub` in `s`, `none` when there is no occurrence. -/
def findSubIdx (sep : List Char) : List Char → Option Nat
  | [] => if sep = [] then some 0 else none
  | c :: cs =>
    if sep.isPrefixOf (c :: cs) then some 0
    else (findSubIdx sep cs).map (· + 1)

/-- Python `s.split(sep, 1)`: split on the first occurrence of `sep` only.
`none` models the one-element result (no occurrence). -/
def splitOnce (sep s : List Char) : Option (List Char × List Char) :=
  match findSubIdx sep s with
  | none => none
  | some i => some (s.take i, s.drop (i + sep.length))

/-- Character class `[\n\0]` of `_RX_HEADER_LINE_SEPARATOR`. -/
def isHdrSepChar (c : Char) : Bool := c = '\n' || c = '\x00'

/-- Python `_RX_HEADER_LINE_SEPARATOR.split(s)` where the pattern is
`[\n\0]:`: split on every newline-or-NUL that is immediately followed by a
colon, consuming both characters, scanning left to right. -/
def splitRxHeader : List Char → List (List Char)
  | [] => [[]]
  | [c] => [[c]]
  | c1 :: c2 :: rest =>
    if isHdrSepChar c1 ∧ c2 = ':' then
      [] :: splitRxHeader rest
    else
      match splitRxHeader (c2 :: rest) with
      | seg :: segs => (c1 :: seg) :: segs
      | [] => [[c1]]

/-- Literal `diff ` keyword of the `re.split(r"^diff ", rest, re.MULTILINE)`
call. -/
def diffKw : List Char := "diff ".data

/-- One scanning step of `re.split(r"^diff ", rest, flags=re.MULTILINE)`.
The boolean says whether the scanner is at the start of a line (start of
string, or right after a newline); the pattern matches only there. -/
def reSplitDiffGo : Nat → Bool → List Char → List (List Char)
  | _, _, [] => [[]]
  | skip + 1, _, c :: cs => reSplitDiffGo skip (c = '\n') cs
  | 0, atLS, c :: cs =>
    if atLS ∧ diffKw.isPrefixOf (c :: cs) then
      [] :: reSplitDiffGo (diffKw.length - 1) (c = '\n') cs
    else
      match reSplitDiffGo 0 (c = '\n') cs with
      | seg :: segs => (c :: seg) :: segs
      | [] => [[c]]

/-- Python `re.split(r"^diff ", rest, flags=re.MULTILINE)`. -/
def reSplitDiff (s : List Char) : List (List Char) := reSplitDiffGo 0 true s

/-- Message of the `ValueError` raised by `_parse_patch_header_line`
(`f"Can't parse header line {line}: unknown status {status}"`). -/
def cantParseMsg (line statusStr : List Char) : List Char :=
  "Can".data ++ '\'' :: "t parse header line ".data ++ line
    ++ ": unknown status ".data ++ statusStr

/-- Message of the `ValueError` raised by `prefix, name, *rest = ...` when
the split yields fewer than two parts. -/
def unpackMsg : List Char :=
  "not enough values to unpack (expected at least 2, got 1)".data

/-- Message of the `IndexError` raised by `header[0]` on an empty header. -/
def indexMsg : List Char := "string index out of range".data

/-- Translation of `_parse_patch_header_line` (commit.py, lines 199-245):
strip trailing NULs, split on NUL into `prefix`, `name` and `rest`, replace
`name` by `rest[0]` when `rest` is non-empty, extract the status letters as
the token after the last space of the prefix with trailing digits stripped,
and map them to a `Filemode` by the ordered `if` chain M / C / A / T / R / D. -/
def _parse_patch_header_line (line : List Char) : Except PyErr (List Char × Filemode) :=
  match splitOnSub ['\x00'] (rstripNul line) with
  | pfx :: nm :: rest =>
    let name := match rest with
      | [] => nm
      | r :: _ => r
    let statusStr := rstripDigits (lastSpaceToken pfx)
    if 'M' ∈ statusStr then .ok (name, Filemode.MODIFY)
    else if 'C' ∈ statusStr then .ok (name, Filemode.NEW)
    else if 'A' ∈ statusStr then .ok (name, Filemode.NEW)
    else if 'T' ∈ statusStr then .ok (name, Filemode.NEW)
    else if 'R' ∈ statusStr then .ok (name, Filemode.RENAME)
    else if 'D' ∈ statusStr then .ok (name, Filemode.DELETE)
    else .error (.valueError (cantParseMsg line statusStr))
  | _ => .error (.valueError unpackMsg)

/-- Header preprocessing and splitting of `_parse_patch_header`
(commit.py, lines 70-83): `none` models the `IndexError` of `header[0]` on
an empty header; otherwise a newline is prepended when the header starts
with a colon, the result is split on `[\n\0]:`, and the first segment
(commit info and message) is dropped. -/
def headerLines (header : List Char) : Option (List (List Char)) :=
  match header with
  | [] => none
  | h :: _ =>
    some (splitRxHeader (if h = ':' then '\n' :: header else header)).tail

/-- Translation of the generator `_parse_patch_header`, fully consumed:
every remaining segment is decoded by `_parse_patch_header_line` with the
consumed colon re-prefixed (`f":{line}"`). -/
def _parse_patch_header (header : List Char) : Except PyErr (List (List Char × Filemode)) :=
  match headerLines header with
  | none => .error (.indexError indexMsg)
  | some ls => ls.mapM (fun l => _parse_patch_header_line (':' :: l))

/-- Modelled from the spec: `is_filepath_excluded` lives in
`ggshield.utils.files`, outside the sampled files.  The spec describes the
exclusion input as "a set of path-exclusion predicates (pattern objects
matched against a filename)"; each compiled pattern is modelled by the
predicate it denotes on filenames. -/
def is_filepath_excluded (filepath : List Char) (exclusionRegexes : List (List Char → Bool)) : Bool :=
  exclusionRegexes.any (fun r => r filepath)

/-- Separator `"\0diff "` of the per-commit header/diff split. -/
def sepDiff : List Char := "\x00diff ".data

/-- Separator `"\0commit "` of the per-commit chunk split. -/
def sepCommit : List Char := "\x00commit ".data

/-- Needle `"\n@@"` of the `diff.index("\n@@")` content search. -/
def nlAtAt : List Char := "\n@@".data

/-- Content extraction step of `_parse_patch` (commit.py, lines 59-65):
`end_of_headers = diff.index("\n@@")` and `content = diff[end_of_headers + 1:]`;
`none` models the caught `ValueError` ("No content"). -/
def extractContent (diff : List Char) : Option (List Char) :=
  match findSubIdx nlAtAt diff with
  | none => none
  | some i => some (diff.drop (i + 1))

/-- Consumption of `zip(names_and_modes, diffs)` inside `_parse_patch`,
with the lazy `_parse_patch_header` generator made explicit: `zip` pulls a
header segment first (decoding it, possibly raising), then pulls a diff
block, stopping as soon as either side is exhausted.  For each pair the
filename is checked against the exclusion patterns, then the content is
extracted; files without content are skipped. -/
def pairZip (exclusionRegexes : List (List Char → Bool)) :
    List (List Char) → List (List Char) → Except PyErr (List StringScannable)
  | [], _ => .ok []
  | seg :: segs, diffs =>
    match _parse_patch_header_line (':' :: seg) with
    | .error e => .error e
    | .ok (filename, filemode) =>
      match diffs with
      | [] => .ok []
      | d :: ds =>
        match pairZip exclusionRegexes segs ds with
        | .error e => .error e
        | .ok recs =>
          if is_filepath_excluded filename exclusionRegexes then .ok recs
          else
            match extractContent d with
            | none => .ok recs
            | some content => .ok (⟨filename, content, filemode⟩ :: recs)

/-- Records produced by one commit chunk of `_parse_patch` after the
`"\0diff "` split: `headerLines` models the generator body up to the first
yield (including the `header[0]` access), `reSplitDiff` the
`re.split(r"^diff ", rest, flags=re.MULTILINE)` call, `pairZip` the zipped
consumption. -/
def chunkRecords (exclusionRegexes : List (List Char → Bool))
    (header rest : List Char) : Except PyErr (List StringScannable) :=
  match headerLines header with
  | none => .error (.indexError indexMsg)
  | some segs => pairZip exclusionRegexes segs (reSplitDiff rest)

/-- Loop of `_parse_patch` over the `patch.split("\0commit ")` chunks:
chunks without a `"\0diff "` boundary are skipped
(`len(tokens) == 1` / "No diff, carry on to next commit"). -/
def parsePatchGo (exclusionRegexes : List (List Char → Bool)) :
    List (List Char) → Except PyErr (List StringScannable)
  | [] => .ok []
  | chunk :: rest =>
    match splitOnce sepDiff chunk with
    | none => parsePatchGo exclusionRegexes rest
    | some (header, restText) =>
      match chunkRecords exclusionRegexes header restText with
      | .error e => .error e
      | .ok recs =>
        match parsePatchGo exclusionRegexes rest with
        | .error e => .error e
        | .ok more => .ok (recs ++ more)

/-- Translation of the generator `_parse_patch` (commit.py, lines 29-67),
fully consumed into a list (or the first escaping exception).
`exclusionRegexes = none` models the `None` default, replaced by the empty
set on entry. -/
def _parse_patch (patch : List Char)
    (exclusionRegexes : Option (List (List Char → Bool))) :
    Except PyErr (List StringScannable) :=
  parsePatchGo (exclusionRegexes.getD []) (splitOnSub sepCommit patch)

/-- Python `.` (any character except newline) of `REGEX_HEADER_INFO`. -/
def reDotChar (c : Char) : Bool := c ≠ '\n'

/-- Python `\s` of `REGEX_HEADER_INFO`, on the ASCII whitespace characters
(space, tab, newline, carriage return, vertical tab, form feed); the extra
Unicode whitespace characters of Python are not modelled. -/
def reSpaceChar (c : Char) : Bool :=
  c = ' ' || c = '\t' || c = '\n' || c = '\r' || c = '\x0b' || c = '\x0c'

/-- Backtracking matcher for the tail `\s+(?P<date>.+)?\n` of
`REGEX_HEADER_INFO`, positioned after `Date:` and at least one consumed
whitespace character.  `\s+` is greedy (extend first), the optional greedy
group `(.+)?` prefers to be present; an absent group is the Python group
value `None`, modelled as `none`. -/
def dateSpaces : List Char → Option (Option (List Char))
  | [] => dateAtGroup []
  | c :: rest =>
    (if reSpaceChar c then dateSpaces rest else none) <|> dateAtGroup (c :: rest)
where
  /-- Match `(?P<date>.+)?\n` at the current position. -/
  dateAtGroup (s : List Char) : Option (Option (List Char)) :=
    let run := s.takeWhile reDotChar
    if run ≠ [] ∧ (s.drop run.length).head? = some '\n' then some (some run)
    else
      match s with
      | '\n' :: _ => some none
      | _ => none

/-- Matcher for `\s+(?P<date>.+)?\n` right after the literal `Date:`. -/
def dateTail : List Char → Option (Option (List Char))
  | [] => none
  | c :: rest => if reSpaceChar c then dateSpaces rest else none

/-- Literal `>\nDate:` closing the email group of `REGEX_HEADER_INFO`. -/
def emailClose : List Char := ">\nDate:".data

/-- Backtracking matcher for the lazy group `(?P<email>.+?)` followed by
`>\nDate:` and the date tail; `acc` holds the group characters consumed so
far, in reverse.  Lazy: try to close the group before extending it. -/
def emailAfter (acc : List Char) : List Char → Option (List Char × Option (List Char))
  | [] => none
  | c :: rest =>
    (if emailClose.isPrefixOf (c :: rest) then
      (dateTail ((c :: rest).drop emailClose.length)).map (fun d => (acc.reverse, d))
    else none)
    <|>
    (if reDotChar c then emailAfter (c :: acc) rest else none)

/-- First (mandatory) character of the email group, then `emailAfter`. -/
def emailStart : List Char → Option (List Char × Option (List Char))
  | [] => none
  | c :: rest => if reDotChar c then emailAfter [c] rest else none

/-- Backtracking matcher for the lazy group `(?P<author>.+?)` followed by
the literal ` <`, the email group and the rest of the pattern.  Lazy: try
to close the group before extending it. -/
def authorAfter (acc : List Char) : List Char → Option (List Char × List Char × Option (List Char))
  | [] => none
  | c :: rest =>
    (if (' ' :: ['<']).isPrefixOf (c :: rest) then
      (emailStart ((c :: rest).drop 2)).map (fun p => (acc.reverse, p.1, p.2))
    else none)
    <|>
    (if reDotChar c then authorAfter (c :: acc) rest else none)

/-- First (mandatory) character of the author group, then `authorAfter`. -/
def authorStart : List Char → Option (List Char × List Char × Option (List Char))
  | [] => none
  | c :: rest => if reDotChar c then authorAfter [c] rest else none

/-- Match of `REGEX_HEADER_INFO`
(`Author:\s(?P<author>.+?) <(?P<email>.+?)>\nDate:\s+(?P<date>.+)?\n`)
anchored at the current position. -/
def headerInfoAt (s : List Char) : Option (List Char × List Char × Option (List Char)) :=
  if "Author:".data.isPrefixOf s then
    match s.drop 7 with
    | [] => none
    | c :: rest => if reSpaceChar c then authorStart rest else none
  else none

/-- Python `REGEX_HEADER_INFO.search(patch)`: try the anchored match at
every position, left to right. -/
def headerInfoSearch : List Char → Option (List Char × List Char × Option (List Char))
  | [] => headerInfoAt []
  | c :: rest => headerInfoAt (c :: rest) <|> headerInfoSearch rest

/-- Translation of the `CommitInformation` NamedTuple (commit.py, lines
86-95).  The `date` field is `Option` because the `(?P<date>.+)?` group of
the header regex can be absent (Python `None`); the Python string `""` is
`some []`. -/
structure CommitInformation where
  author : List Char
  email : List Char
  date : Option (List Char)
deriving DecidableEq

/-- Translation of `CommitInformation.from_patch_header`: `none` models the
`AssertionError` of `assert match is not None`. -/
def CommitInformation.from_patch_header (patch : List Char) : Option CommitInformation :=
  (headerInfoSearch patch).map (fun g => ⟨g.1, g.2.1, g.2.2⟩)

/-- Translation of `_UNKNOWN_COMMIT_INFORMATION = CommitInformation("unknown", "", "")`. -/
def _UNKNOWN_COMMIT_INFORMATION : CommitInformation :=
  ⟨"unknown".data, [], some []⟩

/-- Translation of the `Commit` class (commit.py, lines 110-196).  The
`patchParser` field is the deferred parse function; keeping it as a
function preserves the laziness of the Python `patch_parser` callable:
constructing a `Commit` does not evaluate it. -/
structure Commit where
  sha : Option (List Char)
  patchParser : Unit → Except PyErr (List StringScannable)
  info : CommitInformation

/-- Translation of `Commit.__init__`: `self.info = info or
_UNKNOWN_COMMIT_INFORMATION` (a `CommitInformation` NamedTuple is a
non-empty tuple, hence always truthy, so `or` only replaces `None`). -/
def Commit.init (sha : Option (List Char))
    (patchParser : Unit → Except PyErr (List StringScannable))
    (info : Option CommitInformation) : Commit :=
  ⟨sha, patchParser, info.getD _UNKNOWN_COMMIT_INFORMATION⟩

/-- Translation of `Commit.get_files` / the `files` cached property, fully
consumed: evaluate the stored parse function. -/
def Commit.files (c : Commit) : Except PyErr (List StringScannable) :=
  c.patchParser ()

/-- Wrapper of the `except Exception` clause of the `from_sha` parser:
`raise PatchParseError(f"Could not parse patch (sha: {sha}): {exc}")`. -/
def wrapShaResult (sha : List Char) :
    Except PyErr (List StringScannable) → Except PyErr (List StringScannable)
  | .ok v => .ok v
  | .error e =>
    .error (.patchParseError ("Could not parse patch (sha: ".data ++ sha
      ++ "): ".data ++ e.message))

/-- Wrapper of the `except Exception` clause of the `from_staged` and
`from_patch` parsers: `raise PatchParseError(f"Could not parse patch: {exc}")`. -/
def wrapPlainResult :
    Except PyErr (List StringScannable) → Except PyErr (List StringScannable)
  | .ok v => .ok v
  | .error e =>
    .error (.patchParseError ("Could not parse patch: ".data ++ e.message))

/-- Translation of `Commit.from_sha` (commit.py, lines 129-145).  The two
external `git` invocations are modelled by their returned texts:
`headerText` for `git show --no-patch sha` and `patchText` for
`git show sha --raw -z --patch -m`.  Construction first parses the commit
information (asserting a header match: `none` models that
`AssertionError`), then stores a deferred parser whose exceptions are
wrapped in a `PatchParseError` naming the sha. -/
def Commit.from_sha (sha headerText patchText : List Char)
    (exclusionRegexes : Option (List (List Char → Bool))) : Option Commit :=
  (CommitInformation.from_patch_header headerText).map (fun info =>
    Commit.init (some sha)
      (fun _ => wrapShaResult sha (_parse_patch patchText exclusionRegexes))
      (some info))

/-- Translation of `Commit.from_staged` (commit.py, lines 147-158).  The
`git diff --cached --raw -z --patch -m` invocation is modelled by
`patchText`.  No commit information is supplied (`sha=None`). -/
def Commit.from_staged (patchText : List Char)
    (exclusionRegexes : Option (List (List Char → Bool))) : Commit :=
  Commit.init none
    (fun _ => wrapPlainResult (_parse_patch patchText exclusionRegexes))
    none

/-- Translation of `Commit.from_patch` (commit.py, lines 160-174):
commit information is parsed from the patch itself, eagerly, before the
deferred parser is even created; `none` models the `AssertionError` on a
patch without an `Author:`/`Date:` header. -/
def Commit.from_patch (patch : List Char)
    (exclusionRegexes : Option (List (List Char → Bool))) : Option Commit :=
  (CommitInformation.from_patch_header patch).map (fun info =>
    Commit.init none
      (fun _ => wrapPlainResult (_parse_patch patch exclusionRegexes))
      (some info))

/-! ## Spec-side characterisations and basic lemmas -/

/-- Predicate: `needle` occurs as a contiguous substring of `hay`. -/
def HasSub (needle hay : List Char) : Prop := ∃ x y, hay = x ++ needle ++ y

/-- Filename choice of `_parse_patch_header_line`: the `name` part, or
`rest[0]` when `rest` is non-empty. -/
def chosenName (nm : List Char) (rest : List (List Char)) : List Char :=
  match rest with
  | [] => nm
  | r :: _ => r

/-- Fixed-precedence status-letter resolution, as the spec states it:
any `M` wins, then `C`/`A`/`T`, then `R`, then `D`. -/
def statusFilemode (statusStr : List Char) : Filemode :=
  if 'M' ∈ statusStr then Filemode.MODIFY
  else if 'C' ∈ statusStr ∨ 'A' ∈ statusStr ∨ 'T' ∈ statusStr then Filemode.NEW
  else if 'R' ∈ statusStr then Filemode.RENAME
  else Filemode.DELETE

theorem splitGo_skip (sep : List Char) (n : Nat) (s : List Char) :
    splitGo sep n s = splitGo sep 0 (List.drop n s) := by
  induction s generalizing n with
  | nil => cases n <;> simp [splitGo]
  | cons c cs ih =>
    cases n with
    | zero => simp
    | succ m => simpa [splitGo] using ih m

theorem splitGo_ne_nil (sep : List Char) (n : Nat) (s : List Char) :
    splitGo sep n s ≠ [] := by
  induction n, s using splitGo.induct sep <;>
    simp_all [splitGo] <;> split <;> simp_all

theorem splitOnSub_ne_nil (sep s : List Char) : splitOnSub sep s ≠ [] :=
  splitGo_ne_nil sep 0 s

theorem splitRxHeader_ne_nil (s : List Char) : splitRxHeader s ≠ [] := by
  induction s using splitRxHeader.induct <;>
    simp_all [splitRxHeader] <;> split <;> simp_all

theorem reSplitDiffGo_ne_nil (n : Nat) (fl : Bool) (s : List Char) :
    reSplitDiffGo n fl s ≠ [] := by
  induction n, fl, s using reSplitDiffGo.induct <;>
    simp_all [reSplitDiffGo] <;> split <;> simp_all

/-- Evaluation of `_parse_patch_header_line` on a line whose NUL-split has
at least two parts and whose status token contains a recognised letter. -/
theorem parse_header_line_eval (line pfx nm : List Char) (rest : List (List Char))
    (hsplit : splitOnSub ['\x00'] (rstripNul line) = pfx :: nm :: rest)
    (hletter : 'M' ∈ rstripDigits (lastSpaceToken pfx) ∨
      'C' ∈ rstripDigits (lastSpaceToken pfx) ∨
      'A' ∈ rstripDigits (lastSpaceToken pfx) ∨
      'T' ∈ rstripDigits (lastSpaceToken pfx) ∨
      'R' ∈ rstripDigits (lastSpaceToken pfx) ∨
      'D' ∈ rstripDigits (lastSpaceToken pfx)) :
    _parse_patch_header_line line =
      .ok (chosenName nm rest, statusFilemode (rstripDigits (lastSpaceToken pfx))) := by
  unfold _parse_patch_header_line statusFilemode
  rw [hsplit]
  dsimp only [chosenName]
  split_ifs <;> first | rfl | tauto

/-- C1: for every raw header status line whose status token (the token
after the final space of the prefix, with trailing digits stripped)
contains at least one letter of M, C, A, T, R, D, the header-line decoder
returns the filemode chosen by fixed precedence: MODIFY for an `M`,
otherwise NEW for `C`/`A`/`T`, otherwise RENAME for `R`, otherwise DELETE
for `D`; in particular single letters map M to MODIFY, A/C/T to NEW, R to
RENAME, D to DELETE, and a status containing both `M` and `D` yields
MODIFY. -/
theorem header_line_filemode_precedence (line pfx nm : List Char) (rest : List (List Char))
    (hsplit : splitOnSub ['\x00'] (rstripNul line) = pfx :: nm :: rest)
    (hletter : 'M' ∈ rstripDigits (lastSpaceToken pfx) ∨
      'C' ∈ rstripDigits (lastSpaceToken pfx) ∨
      'A' ∈ rstripDigits (lastSpaceToken pfx) ∨
      'T' ∈ rstripDigits (lastSpaceToken pfx) ∨
      'R' ∈ rstripDigits (lastSpaceToken pfx) ∨
      'D' ∈ rstripDigits (lastSpaceToken pfx)) :
    _parse_patch_header_line line =
      .ok (chosenName nm rest, statusFilemode (rstripDigits (lastSpaceToken pfx))) :=
  parse_header_line_eval line pfx nm rest hsplit hletter

/-- C1 witness: a merge status `DM` (both `D` and `M`, `M` not first)
decodes to MODIFY. -/
theorem header_line_filemode_precedence_witness :
    splitOnSub ['\x00'] (rstripNul (":100644 100644 aaa bbb DM\x00f.txt".data)) =
      [":100644 100644 aaa bbb DM".data, "f.txt".data] ∧
    _parse_patch_header_line (":100644 100644 aaa bbb DM\x00f.txt".data) =
      .ok ("f.txt".data, Filemode.MODIFY) := by
  constructor
  · decide
  · have h := header_line_filemode_precedence (":100644 100644 aaa bbb DM\x00f.txt".data)
      (":100644 100644 aaa bbb DM".data) ("f.txt".data) [] (by decide) (by decide)
    rw [h]
    decide

/-- C9 counterexample: a header line whose NUL-split remainder has two
extra fields `["a", "b"]`; the decoder returns the FIRST element `a` of
the remainder (`rest[0]` in the source), not the last element `b` as the
claim states. -/
theorem header_line_rest_counterexample :
    splitOnSub ['\x00'] (rstripNul (":100644 100644 aaa bbb R100\x00old\x00a\x00b".data)) =
      [":100644 100644 aaa bbb R100".data, "old".data, "a".data, "b".data] ∧
    _parse_patch_header_line (":100644 100644 aaa bbb R100\x00old\x00a\x00b".data) =
      .ok ("a".data, Filemode.RENAME) ∧
    ("a".data : List Char) ≠ "b".data := by
  refine ⟨by decide, ?_, by decide⟩
  decide

/-- C9 amended: for every raw header line whose NUL-split (after stripping
a trailing NUL) yields a prefix, a name and a non-empty remainder of extra
NUL-separated fields, the header-line decoder returns as filename the
FIRST element of that remainder (for a rename line, whose remainder is the
single post-rename name, this is the new name). -/
theorem header_line_rest_first (line pfx nm r : List Char) (restTl : List (List Char))
    (hsplit : splitOnSub ['\x00'] (rstripNul line) = pfx :: nm :: r :: restTl)
    (hletter : 'M' ∈ rstripDigits (lastSpaceToken pfx) ∨
      'C' ∈ rstripDigits (lastSpaceToken pfx) ∨
      'A' ∈ rstripDigits (lastSpaceToken pfx) ∨
      'T' ∈ rstripDigits (lastSpaceToken pfx) ∨
      'R' ∈ rstripDigits (lastSpaceToken pfx) ∨
      'D' ∈ rstripDigits (lastSpaceToken pfx)) :
    _parse_patch_header_line line =
      .ok (r, statusFilemode (rstripDigits (lastSpaceToken pfx))) :=
  parse_header_line_eval line pfx nm (r :: restTl) hsplit hletter

/-- C9 amended witness: a standard rename line with one extra field; the
decoder returns the post-rename name. -/
theorem header_line_rest_first_witness :
    splitOnSub ['\x00'] (rstripNul (":100644 100644 aaa bbb R100\x00old.txt\x00new.txt\x00".data)) =
      [":100644 100644 aaa bbb R100".data, "old.txt".data, "new.txt".data] ∧
    _parse_patch_header_line (":100644 100644 aaa bbb R100\x00old.txt\x00new.txt\x00".data) =
      .ok ("new.txt".data, Filemode.RENAME) := by
  constructor
  · decide
  · have h := header_line_rest_first (":100644 100644 aaa bbb R100\x00old.txt\x00new.txt\x00".data)
      (":100644 100644 aaa bbb R100".data) ("old.txt".data) ("new.txt".data) [] (by decide) (by decide)
    rw [h]
    decide

/-- Header parsing exactly as claim C3 words it: the synthetic blank line
is prepended when the (non-empty) header does NOT start with a colon, and
nothing is prepended when it does; then split on newline-or-NUL followed
by colon, drop the first segment, decode the rest with the colon
re-prefixed. -/
def parsePatchHeaderAsWritten (header : List Char) : Except PyErr (List (List Char × Filemode)) :=
  match header with
  | [] => .error (.indexError indexMsg)
  | h :: _ =>
    ((splitRxHeader (if h = ':' then header else '\n' :: header)).tail).mapM
      (fun l => _parse_patch_header_line (':' :: l))

/-- C3 counterexample: on the `git diff`-style header `":0 M\0f"` (which
starts with a colon), the procedure described by the claim prepends
nothing, so the split keeps the whole header in the discarded first
segment and decodes no file at all, while the source decodes one file:
the code prepends exactly when the header DOES start with a colon. -/
theorem header_prepend_counterexample :
    parsePatchHeaderAsWritten (":0 M\x00f".data) = .ok [] ∧
    _parse_patch_header (":0 M\x00f".data) = .ok [("f".data, Filemode.MODIFY)] ∧
    (Except.ok [] : Except PyErr (List (List Char × Filemode))) ≠
      .ok [("f".data, Filemode.MODIFY)] := by
  refine ⟨?_, ?_, by decide⟩
  · decide
  · decide

/-- Normalisation underlying the amended header-split description: rewrite
every newline-or-NUL-followed-by-colon boundary so that its first
character is a newline; splitting on the two-character string `"\n:"`
afterwards is then equivalent to the regex split on `[\n\0]:`. -/
def normalizeHdrSeps : List Char → List Char
  | [] => []
  | [c] => [c]
  | c1 :: c2 :: rest =>
    if isHdrSepChar c1 ∧ c2 = ':' then '\n' :: ':' :: normalizeHdrSeps rest
    else c1 :: normalizeHdrSeps (c2 :: rest)

/-- Independent restatement of the header parser following the amended
claim wording: prepend the synthetic blank line exactly when the header
DOES start with a colon, split on the newline-or-NUL-followed-by-colon
boundary (here: normalise the boundary and split on the plain string
`"\n:"`), discard the first segment, decode the rest with the removed
colon re-prefixed. -/
def parsePatchHeaderAmended (header : List Char) : Except PyErr (List (List Char × Filemode)) :=
  match header with
  | [] => .error (.indexError indexMsg)
  | h :: _ =>
    ((splitOnSub ('\n' :: [':']) (normalizeHdrSeps (if h = ':' then '\n' :: header else header))).tail).mapM
      (fun l => _parse_patch_header_line (':' :: l))

theorem normalizeHdrSeps_head (c : Char) (rest : List Char) :
    (normalizeHdrSeps (c :: rest)).head? = some '\n' ∨
    (normalizeHdrSeps (c :: rest)).head? = some c := by
  cases rest with
  | nil => right; rfl
  | cons c2 r2 =>
    rw [normalizeHdrSeps]
    split
    · left; rfl
    · right; rfl

theorem splitGo_zero_cons (sep : List Char) (c : Char) (cs : List Char) :
    splitGo sep 0 (c :: cs) =
      if sep ≠ [] ∧ sep.isPrefixOf (c :: cs) then
        [] :: splitGo sep (sep.length - 1) cs
      else
        match splitGo sep 0 cs with
        | seg :: segs => (c :: seg) :: segs
        | [] => [[c]] := rfl

theorem splitGo_succ_cons (sep : List Char) (n : Nat) (c : Char) (cs : List Char) :
    splitGo sep (n + 1) (c :: cs) = splitGo sep n cs := rfl

theorem splitOnSub_normalize (s : List Char) :
    splitOnSub ('\n' :: [':']) (normalizeHdrSeps s) = splitRxHeader s := by
  induction s using normalizeHdrSeps.induct with
  | case1 => rfl
  | case2 c =>
    rw [normalizeHdrSeps, splitRxHeader, splitOnSub, splitGo_zero_cons, if_neg]
    · rfl
    · rintro ⟨-, hpre⟩
      rw [List.isPrefixOf_iff_prefix] at hpre
      exact absurd (List.IsPrefix.length_le hpre) (by simp)
  | case3 c1 c2 rest h ih =>
    rw [normalizeHdrSeps, if_pos h, splitRxHeader, if_pos h]
    rw [splitOnSub] at ih ⊢
    rw [splitGo_zero_cons, if_pos]
    · rw [show (('\n' :: [':']).length - 1) = 1 from rfl, splitGo_succ_cons, ih]
    · exact ⟨by simp, by simp [List.isPrefixOf]⟩
  | case4 c1 c2 rest h ih =>
    rw [normalizeHdrSeps, if_neg h, splitRxHeader, if_neg h]
    rw [splitOnSub] at ih ⊢
    rw [splitGo_zero_cons, if_neg]
    · rw [ih]
    · rintro ⟨-, hpre⟩
      rw [List.isPrefixOf_iff_prefix] at hpre
      rcases List.cons_prefix_cons.mp hpre with ⟨hc1, hpre2⟩
      have hhead : (normalizeHdrSeps (c2 :: rest)).head? = some ':' := by
        rcases hpre2 with ⟨t, ht⟩
        rw [← ht]
        rfl
      rcases normalizeHdrSeps_head c2 rest with hh | hh
      · rw [hhead] at hh
        exact absurd (Option.some.inj hh) (by decide)
      · rw [hhead] at hh
        exact h ⟨by simp [isHdrSepChar, ← hc1], (Option.some.inj hh).symm⟩

/-- C3 amended: in the header block parser, for every header string, a
synthetic blank line is prepended before splitting exactly when the header
DOES start with a colon (and for a non-empty header not starting with a
colon nothing is prepended); then the header is split on
newline-or-NUL-followed-by-colon, the first segment is discarded as commit
info, and every remaining segment is decoded with the removed colon
re-prefixed — as witnessed by equality with the independent restatement
`parsePatchHeaderAmended`. -/
theorem header_prepend_amended (header : List Char) :
    _parse_patch_header header = parsePatchHeaderAmended header := by
  cases header with
  | nil => rfl
  | cons h t =>
    simp only [_parse_patch_header, headerLines, parsePatchHeaderAmended,
      splitOnSub_normalize]

/-- C8 counterexample: a Commit built from the staged index (no commit
information) has the sentinel info with author `"unknown"` but EMPTY email
(the claim says the email is also `"unknown"`). -/
theorem staged_info_email_counterexample :
    (Commit.from_staged [] none).info.author = "unknown".data ∧
    (Commit.from_staged [] none).info.email = [] ∧
    (Commit.from_staged [] none).info.email ≠ "unknown".data := by
  refine ⟨rfl, rfl, by decide⟩

/-- C8 amended: every Commit constructed without commit information (the
internal constructor given `info=None`, and in particular one built from
the staged index) exposes the sentinel triple: author `"unknown"`, email
the empty string, date the empty string. -/
theorem commit_info_sentinel (sha : Option (List Char))
    (patchParser : Unit → Except PyErr (List StringScannable))
    (patchText : List Char) (excl : Option (List (List Char → Bool))) :
    (Commit.init sha patchParser none).info = _UNKNOWN_COMMIT_INFORMATION ∧
    (Commit.from_staged patchText excl).info = _UNKNOWN_COMMIT_INFORMATION ∧
    _UNKNOWN_COMMIT_INFORMATION = ⟨"unknown".data, [], some []⟩ :=
  ⟨rfl, rfl, rfl⟩

/-- C7: constructing a Commit from a literal patch string whose text has no
match of the `Author:`/`Date:` header pattern fails at construction time
(the `assert match is not None` in `CommitInformation.from_patch_header`,
modelled by `none`): no Commit object is produced at all, for any
exclusion patterns, hence in particular no file list is ever computed or
consulted. -/
theorem from_patch_missing_header_fails (patch : List Char)
    (excl : Option (List (List Char → Bool)))
    (hnone : CommitInformation.from_patch_header patch = none) :
    Commit.from_patch patch excl = none := by
  rw [Commit.from_patch, hnone]
  rfl

/-- C7 witness: a concrete patch without the `Author:`/`Date:` block. -/
theorem from_patch_missing_header_fails_witness :
    CommitInformation.from_patch_header "commit abc\nno author line\n".data = none ∧
    Commit.from_patch "commit abc\nno author line\n".data none = none :=
  ⟨by decide, from_patch_missing_header_fails _ none (by decide)⟩

/-- C6: for every commit, any exception inside the demultiplex / decode /
extract pipeline surfaces, on consuming the file sequence, as exactly one
`PatchParseError` whose message is the constructor-specific wrapper text
around the original message (naming the sha for a commit built by
identifier), and a successful parse passes through unchanged — the single
wrapper is the only failure mode of `files`. -/
theorem patch_errors_wrapped (sha headerText patchText : List Char)
    (excl : Option (List (List Char → Bool))) :
    (∀ c, Commit.from_sha sha headerText patchText excl = some c →
      c.files = wrapShaResult sha (_parse_patch patchText excl)) ∧
    (Commit.from_staged patchText excl).files =
      wrapPlainResult (_parse_patch patchText excl) ∧
    (∀ c, Commit.from_patch patchText excl = some c →
      c.files = wrapPlainResult (_parse_patch patchText excl)) ∧
    (∀ e, _parse_patch patchText excl = .error e →
      wrapShaResult sha (_parse_patch patchText excl) =
        .error (.patchParseError ("Could not parse patch (sha: ".data ++ sha
          ++ "): ".data ++ e.message)) ∧
      HasSub sha ("Could not parse patch (sha: ".data ++ sha ++ "): ".data ++ e.message) ∧
      HasSub e.message ("Could not parse patch (sha: ".data ++ sha ++ "): ".data ++ e.message) ∧
      wrapPlainResult (_parse_patch patchText excl) =
        .error (.patchParseError ("Could not parse patch: ".data ++ e.message)) ∧
      HasSub e.message ("Could not parse patch: ".data ++ e.message)) ∧
    (∀ rs, _parse_patch patchText excl = .ok rs →
      wrapShaResult sha (_parse_patch patchText excl) = .ok rs ∧
      wrapPlainResult (_parse_patch patchText excl) = .ok rs) := by
  refine ⟨?_, rfl, ?_, ?_, ?_⟩
  · intro c hc
    rw [Commit.from_sha] at hc
    rcases Option.map_eq_some'.mp hc with ⟨info, -, rfl⟩
    rfl
  · intro c hc
    rw [Commit.from_patch] at hc
    rcases Option.map_eq_some'.mp hc with ⟨info, -, rfl⟩
    rfl
  · intro e he
    rw [he]
    refine ⟨rfl, ?_, ?_, rfl, ?_⟩
    · exact ⟨"Could not parse patch (sha: ".data, "): ".data ++ e.message, by simp⟩
    · exact ⟨"Could not parse patch (sha: ".data ++ sha ++ "): ".data, [], by simp⟩
    · exact ⟨"Could not parse patch: ".data, [], by simp⟩
  · intro rs hrs
    rw [hrs]
    exact ⟨rfl, rfl⟩

/-- C6 witness: a concrete patch whose header contains an unknown status
letter `Q`; consuming the staged-commit files yields the single wrapped
`PatchParseError` carrying the original `ValueError` message. -/
theorem patch_errors_wrapped_witness :
    _parse_patch "bad\n:0 Q\x00f\x00\x00diff --git\n@@ x\n+y\n".data none =
      .error (.valueError (cantParseMsg ":0 Q\x00f\x00".data "Q".data)) ∧
    (Commit.from_staged "bad\n:0 Q\x00f\x00\x00diff --git\n@@ x\n+y\n".data none).files =
      .error (.patchParseError ("Could not parse patch: ".data
        ++ cantParseMsg ":0 Q\x00f\x00".data "Q".data)) := by
  have hp : _parse_patch "bad\n:0 Q\x00f\x00\x00diff --git\n@@ x\n+y\n".data none =
      .error (.valueError (cantParseMsg ":0 Q\x00f\x00".data "Q".data)) := by decide
  obtain ⟨-, hstaged, -, herr, -⟩ :=
    patch_errors_wrapped [] [] "bad\n:0 Q\x00f\x00\x00diff --git\n@@ x\n+y\n".data none
  obtain ⟨-, -, -, hplain, -⟩ := herr _ hp
  exact ⟨hp, by rw [hstaged, hplain]; rfl⟩

theorem pairZip_exclusion (rxs : List (List Char → Bool)) (segs diffs : List (List Char)) :
    pairZip rxs segs diffs =
      Except.map (List.filter (fun r => ! is_filepath_excluded r.path rxs))
        (pairZip [] segs diffs) := by
  induction segs generalizing diffs with
  | nil => simp [pairZip, Except.map]
  | cons seg segs ih =>
    rw [pairZip, pairZip]
    cases hdec : _parse_patch_header_line (':' :: seg) with
    | error e => rfl
    | ok p =>
      obtain ⟨fn, fm⟩ := p
      cases diffs with
      | nil => simp [Except.map]
      | cons d ds =>
        dsimp only
        rw [ih ds]
        cases hrec : pairZip [] segs ds with
        | error e => rfl
        | ok recs =>
          simp only [Except.map, is_filepath_excluded, List.any_nil, Bool.false_eq_true,
            if_false]
          by_cases hex : rxs.any (fun r => r fn) = true
          · rw [if_pos hex]
            cases hext : extractContent d with
            | none => rfl
            | some ct =>
              simp [List.filter_cons, is_filepath_excluded, hex]
          · rw [if_neg hex]
            cases hext : extractContent d with
            | none => rfl
            | some ct =>
              simp only [Bool.not_eq_true] at hex
              simp [List.filter_cons, is_filepath_excluded, hex, List.any_eq_false.mp hex]

theorem chunkRecords_exclusion (rxs : List (List Char → Bool)) (header restText : List Char) :
    chunkRecords rxs header restText =
      Except.map (List.filter (fun r => ! is_filepath_excluded r.path rxs))
        (chunkRecords [] header restText) := by
  rw [chunkRecords, chunkRecords]
  cases headerLines header with
  | none => rfl
  | some segs => exact pairZip_exclusion rxs segs (reSplitDiff restText)

theorem parsePatchGo_exclusion (rxs : List (List Char → Bool)) (chunks : List (List Char)) :
    parsePatchGo rxs chunks =
      Except.map (List.filter (fun r => ! is_filepath_excluded r.path rxs))
        (parsePatchGo [] chunks) := by
  induction chunks with
  | nil => rfl
  | cons chunk rest ih =>
    rw [parsePatchGo, parsePatchGo]
    cases splitOnce sepDiff chunk with
    | none => exact ih
    | some p =>
      obtain ⟨hdr, rt⟩ := p
      dsimp only
      rw [chunkRecords_exclusion]
      cases hc : chunkRecords [] hdr rt with
      | error e => rfl
      | ok recs =>
        dsimp only [Except.map]
        rw [ih]
        cases hr : parsePatchGo [] rest with
        | error e => rfl
        | ok more => simp [Except.map, List.filter_append]

/-- C5: for every patch text and every set of exclusion patterns, parsing
with the exclusions yields exactly the no-exclusion parse with the records
whose filename matches an exclusion pattern removed: excluded files never
appear (and raise no error), and the filename/filemode/content pairing of
every retained record is unchanged — in the error case both parses fail
identically, so exclusion introduces no error of its own. -/
theorem exclusion_filters_output (patch : List Char) (rxs : List (List Char → Bool)) :
    _parse_patch patch (some rxs) =
      Except.map (List.filter (fun r => ! is_filepath_excluded r.path rxs))
        (_parse_patch patch none) := by
  rw [_parse_patch, _parse_patch]
  exact parsePatchGo_exclusion rxs (splitOnSub sepCommit patch)

/-! ## Generic substring and splitting lemmas -/

theorem prefix_append_elim {w y z : List Char} (h : w <+: y ++ z) :
    w <+: y ∨ (y <+: w ∧ List.drop y.length w <+: z) := by
  rcases h with ⟨t, ht⟩
  rcases List.append_eq_append_iff.mp ht with ⟨a', ha1, ha2⟩ | ⟨c', hc1, hc2⟩
  · exact Or.inl ⟨a', ha1.symm⟩
  · refine Or.inr ⟨⟨c', hc1.symm⟩, ?_⟩
    rw [hc1, List.drop_left]
    exact ⟨t, hc2.symm⟩

theorem prefix_confine {w y z : List Char} (h : w <+: y ++ z)
    (hle : w.length ≤ y.length) : w <+: y := by
  rcases prefix_append_elim h with hw | ⟨hy, -⟩
  · exact hw
  · have : y = w := hy.eq_of_length (Nat.le_antisymm hy.length_le hle)
    rw [this]

theorem hasSub_nil {sep : List Char} (hsep : sep ≠ []) : ¬ HasSub sep [] := by
  rintro ⟨x, y, hxy⟩
  have hl := congrArg List.length hxy
  simp only [List.length_nil, List.length_append] at hl
  exact hsep (List.length_eq_zero.mp (by omega))

theorem hasSub_cons {sep : List Char} {c : Char} {s : List Char} :
    HasSub sep (c :: s) → sep <+: (c :: s) ∨ HasSub sep s := by
  rintro ⟨x, y, hxy⟩
  cases x with
  | nil => exact Or.inl ⟨y, by simpa using hxy.symm⟩
  | cons x0 xs =>
    right
    rw [List.cons_append, List.cons_append] at hxy
    exact ⟨xs, y, (List.cons.inj hxy).2⟩

theorem hasSub_of_pref {sep s : List Char} (h : sep <+: s) : HasSub sep s := by
  rcases h with ⟨t, ht⟩
  exact ⟨[], t, ht.symm⟩

theorem hasSub_cons_of {sep : List Char} {c : Char} {s : List Char} (h : HasSub sep s) :
    HasSub sep (c :: s) := by
  rcases h with ⟨x, y, hxy⟩
  exact ⟨c :: x, y, by rw [hxy]; rfl⟩

theorem hasSub_iff_findSubIdx (sep s : List Char) :
    HasSub sep s ↔ (findSubIdx sep s).isSome := by
  constructor
  · rintro ⟨x, y, rfl⟩
    induction x with
    | nil =>
      cases hsep : sep with
      | nil =>
        cases y <;> simp [findSubIdx]
      | cons h w =>
        simp only [List.nil_append, List.cons_append, findSubIdx]
        rw [if_pos (by exact List.isPrefixOf_iff_prefix.mpr (List.prefix_append _ _))]
        rfl
    | cons c xs ih =>
      simp only [List.cons_append, findSubIdx]
      split
      · rfl
      · simpa using ih
  · intro h
    induction s with
    | nil =>
      rw [findSubIdx] at h
      split at h
      · exact ⟨[], [], by simp_all⟩
      · simp at h
    | cons c cs ih =>
      rw [findSubIdx] at h
      split at h
      · exact hasSub_of_pref (List.isPrefixOf_iff_prefix.mp (by assumption))
      · exact hasSub_cons_of (ih (by simpa using h))

instance (sep s : List Char) : Decidable (HasSub sep s) :=
  decidable_of_iff _ (hasSub_iff_findSubIdx sep s).symm

theorem noSub_noHead {h : Char} {w s : List Char} (hs : h ∉ s) : ¬ HasSub (h :: w) s := by
  induction s with
  | nil => exact hasSub_nil (by simp)
  | cons c cs ih =>
    intro hsub
    rcases hasSub_cons hsub with hp | hrec
    · rcases List.cons_prefix_cons.mp hp with ⟨rfl, -⟩
      exact hs (List.mem_cons_self _ _)
    · exact ih (fun hmem => hs (List.mem_cons_of_mem c hmem)) hrec

theorem noSub_append_headFree {h : Char} {w u v : List Char} (hu : h ∉ u)
    (hv : ¬ HasSub (h :: w) v) : ¬ HasSub (h :: w) (u ++ v) := by
  induction u with
  | nil => exact hv
  | cons c us ih =>
    intro hsub
    rcases hasSub_cons (by simpa using hsub) with hp | hrec
    · rcases List.cons_prefix_cons.mp hp with ⟨rfl, -⟩
      exact hu (List.mem_cons_self _ _)
    · exact ih (fun hmem => hu (List.mem_cons_of_mem c hmem)) hrec

theorem noSub_cons_head {h : Char} {w y : List Char} (hpre : ¬ w <+: y)
    (hy : ¬ HasSub (h :: w) y) : ¬ HasSub (h :: w) (h :: y) := by
  intro hsub
  rcases hasSub_cons hsub with hp | hrec
  · exact hpre (List.cons_prefix_cons.mp hp).2
  · exact hy hrec

theorem not_prefix_append_mid {w name : List Char} {c : Char} {rest : List Char}
    (hc : c ∉ w) (hn : ¬ w <+: name) : ¬ w <+: name ++ c :: rest := by
  intro hp
  rcases prefix_append_elim hp with hw | ⟨hy, hdrop⟩
  · exact hn hw
  · cases hd : List.drop name.length w with
    | nil =>
      have hlen : w.length ≤ name.length := by
        have := congrArg List.length hd
        simp only [List.length_drop, List.length_nil] at this
        omega
      exact hn (by rw [hy.eq_of_length (Nat.le_antisymm hy.length_le hlen)])
    | cons d ds =>
      rw [hd] at hdrop
      rcases List.cons_prefix_cons.mp hdrop with ⟨rfl, -⟩
      exact hc (List.mem_of_mem_drop (hd ▸ List.mem_cons_self _ _))

/-- Separator self-overlap freedom: no proper non-trivial shift of `sep`
aligns with itself.  All separators used by the parser satisfy it. -/
def NoOverlap (sep : List Char) : Prop :=
  ∀ k, 0 < k → k < sep.length → List.drop k sep ≠ List.take (sep.length - k) sep

theorem not_prefix_extend {sep : List Char} {c : Char} {a b : List Char}
    (hno : NoOverlap sep) (hsub : ¬ HasSub sep (c :: a)) :
    ¬ sep <+: (c :: a) ++ sep ++ b := by
  intro hp
  rw [List.append_assoc] at hp
  rcases prefix_append_elim hp with hw | ⟨hy, hdrop⟩
  · exact hsub (hasSub_of_pref hw)
  · rcases Nat.lt_or_ge (c :: a).length sep.length with hlt | hge
    · have hdropPre : List.drop (c :: a).length sep <+: sep := by
        refine prefix_confine hdrop ?_
        simp only [List.length_drop]
        omega
      have : List.drop (c :: a).length sep =
          List.take (sep.length - (c :: a).length) sep := by
        have := List.prefix_iff_eq_take.mp hdropPre
        simpa using this
      exact hno (c :: a).length (by simp) hlt this
    · have : c :: a = sep := hy.eq_of_length (Nat.le_antisymm hy.length_le hge)
      exact hsub ⟨[], [], by simp [this]⟩

theorem splitGo_all {sep s : List Char} (_hsep : sep ≠ []) (hsub : ¬ HasSub sep s) :
    splitGo sep 0 s = [s] := by
  induction s with
  | nil => rfl
  | cons c cs ih =>
    rw [splitGo_zero_cons, if_neg, ih (fun hx => hsub (hasSub_cons_of hx))]
    rintro ⟨-, hpre⟩
    exact hsub (hasSub_of_pref (List.isPrefixOf_iff_prefix.mp hpre))

theorem splitGo_append {sep : List Char} (a b : List Char) (hsep : sep ≠ [])
    (hno : NoOverlap sep) (hsub : ¬ HasSub sep a) :
    splitGo sep 0 (a ++ sep ++ b) = a :: splitGo sep 0 b := by
  induction a with
  | nil =>
    cases hs : sep with
    | nil => exact absurd hs hsep
    | cons s0 sp =>
      simp only [List.nil_append, List.cons_append]
      rw [splitGo_zero_cons, if_pos]
      · rw [splitGo_skip]
        congr 1
        simp only [List.length_cons, Nat.add_sub_cancel]
        rw [List.drop_left]
      · constructor
        · simp
        · exact List.isPrefixOf_iff_prefix.mpr ⟨b, by simp⟩
  | cons c a' ih =>
    have hnp : ¬ sep <+: (c :: a') ++ sep ++ b := not_prefix_extend hno hsub
    have hsub' : ¬ HasSub sep a' := fun hx => hsub (hasSub_cons_of hx)
    simp only [List.cons_append] at hnp ⊢
    rw [splitGo_zero_cons, if_neg, ih hsub']
    rintro ⟨-, hpre⟩
    exact hnp (by simpa [List.cons_append] using List.isPrefixOf_iff_prefix.mp hpre)

theorem findSubIdx_none {sep s : List Char} (hsep : sep ≠ []) (hsub : ¬ HasSub sep s) :
    findSubIdx sep s = none := by
  induction s with
  | nil => simp [findSubIdx, hsep]
  | cons c cs ih =>
    rw [findSubIdx, if_neg, ih (fun hx => hsub (hasSub_cons_of hx))]
    · rfl
    · intro hpre
      exact hsub (hasSub_of_pref (List.isPrefixOf_iff_prefix.mp hpre))

theorem findSubIdx_append {sep : List Char} (a b : List Char) (hsep : sep ≠ [])
    (hno : NoOverlap sep) (hsub : ¬ HasSub sep a) :
    findSubIdx sep (a ++ sep ++ b) = some a.length := by
  induction a with
  | nil =>
    cases hs : sep with
    | nil => exact absurd hs hsep
    | cons s0 sp =>
      simp only [List.nil_append, List.cons_append, findSubIdx]
      rw [if_pos]
      · rfl
      · exact List.isPrefixOf_iff_prefix.mpr ⟨b, by simp⟩
  | cons c a' ih =>
    have hnp : ¬ sep <+: (c :: a') ++ sep ++ b := not_prefix_extend hno hsub
    have hsub' : ¬ HasSub sep a' := fun hx => hsub (hasSub_cons_of hx)
    simp only [List.cons_append] at hnp ⊢
    rw [findSubIdx, if_neg, ih hsub']
    · rfl
    · intro hpre
      exact hnp (by simpa [List.cons_append] using List.isPrefixOf_iff_prefix.mp hpre)

theorem splitOnce_append {sep : List Char} (a b : List Char) (hsep : sep ≠ [])
    (hno : NoOverlap sep) (hsub : ¬ HasSub sep a) :
    splitOnce sep (a ++ sep ++ b) = some (a, b) := by
  have h1 : (a ++ sep ++ b).take a.length = a := by
    rw [List.append_assoc, List.take_left]
  have h2 : (a ++ sep ++ b).drop (a.length + sep.length) = b := by
    rw [← List.length_append]
    exact List.drop_left (a ++ sep) b
  rw [splitOnce, findSubIdx_append a b hsep hno hsub]
  dsimp only
  rw [h1, h2]

theorem splitOnce_none {sep s : List Char} (hsep : sep ≠ []) (hsub : ¬ HasSub sep s) :
    splitOnce sep s = none := by
  rw [splitOnce, findSubIdx_none hsep hsub]

theorem findSubIdx_spec {sep s : List Char} {i : Nat} (h : findSubIdx sep s = some i) :
    sep <+: s.drop i ∧ ∀ j, j < i → ¬ sep <+: s.drop j := by
  induction s generalizing i with
  | nil =>
    rw [findSubIdx] at h
    split at h
    · obtain rfl : (0 : Nat) = i := Option.some.inj h
      subst_vars
      exact ⟨by simp, by omega⟩
    · simp at h
  | cons c cs ih =>
    rw [findSubIdx] at h
    split at h
    · obtain rfl : (0 : Nat) = i := Option.some.inj h
      exact ⟨List.isPrefixOf_iff_prefix.mp (by assumption), by omega⟩
    · rcases Option.map_eq_some'.mp h with ⟨i', hi', rfl⟩
      refine ⟨(ih hi').1, ?_⟩
      intro j hj
      cases j with
      | zero =>
        intro hpre
        exact (by assumption : ¬ sep.isPrefixOf (c :: cs) = true)
          (List.isPrefixOf_iff_prefix.mpr (by simpa using hpre))
      | succ j' =>
        exact (ih hi').2 j' (by omega)

/-- Scanner-freedom of the `[\n\0]:` pattern: no adjacent pair of a
newline-or-NUL followed by a colon occurs in `s`. -/
def rxFreeB : List Char → Bool
  | [] => true
  | [_] => true
  | c1 :: c2 :: rest => (!(isHdrSepChar c1 && (c2 = ':'))) && rxFreeB (c2 :: rest)

theorem sepChar_ne_colon {c : Char} (hc : isHdrSepChar c = true) : c ≠ ':' := by
  rcases Bool.or_eq_true_iff.mp hc with h | h <;>
    · rw [decide_eq_true_iff] at h
      subst h
      decide

theorem splitRxHeader_base (c : Char) (b : List Char) (hc : isHdrSepChar c = true) :
    splitRxHeader (c :: ':' :: b) = [] :: splitRxHeader b := by
  rw [splitRxHeader, if_pos ⟨hc, rfl⟩]

theorem splitRxHeader_boundary (a : List Char) (c : Char) (b : List Char)
    (hc : isHdrSepChar c = true) (ha : rxFreeB a = true) :
    splitRxHeader (a ++ c :: ':' :: b) = a :: splitRxHeader b := by
  induction a using rxFreeB.induct with
  | case1 => exact splitRxHeader_base c b hc
  | case2 a0 =>
    rw [List.singleton_append, splitRxHeader,
      if_neg (fun h => sepChar_ne_colon hc h.2), splitRxHeader_base c b hc]
  | case3 c1 c2 rest ih =>
    rw [rxFreeB, Bool.and_eq_true, Bool.not_eq_true', Bool.and_eq_false_iff] at ha
    have hcond : ¬ (isHdrSepChar c1 = true ∧ c2 = ':') := by
      rcases ha.1 with h | h
      · exact fun hx => by simp [hx.1] at h
      · exact fun hx => by simp [hx.2] at h
    rw [show (c1 :: c2 :: rest) ++ c :: ':' :: b = c1 :: c2 :: (rest ++ c :: ':' :: b)
        from rfl,
      splitRxHeader, if_neg hcond,
      show c2 :: (rest ++ c :: ':' :: b) = (c2 :: rest) ++ c :: ':' :: b from rfl,
      ih ha.2]

theorem splitRxHeader_all (a : List Char) (ha : rxFreeB a = true) :
    splitRxHeader a = [a] := by
  induction a using rxFreeB.induct with
  | case1 => rfl
  | case2 a0 => rfl
  | case3 c1 c2 rest ih =>
    rw [rxFreeB, Bool.and_eq_true, Bool.not_eq_true', Bool.and_eq_false_iff] at ha
    have hcond : ¬ (isHdrSepChar c1 = true ∧ c2 = ':') := by
      rcases ha.1 with h | h
      · exact fun hx => by simp [hx.1] at h
      · exact fun hx => by simp [hx.2] at h
    rw [splitRxHeader, if_neg hcond, ih ha.2]

theorem reSplitDiffGo_zero_cons (fl : Bool) (c : Char) (cs : List Char) :
    reSplitDiffGo 0 fl (c :: cs) =
      if fl = true ∧ diffKw.isPrefixOf (c :: cs) then
        [] :: reSplitDiffGo (diffKw.length - 1) (c = '\n') cs
      else
        match reSplitDiffGo 0 (c = '\n') cs with
        | seg :: segs => (c :: seg) :: segs
        | [] => [[c]] := rfl

theorem reSplitDiffGo_start (rest : List Char) (fl : Bool) (hfl : fl = true) :
    reSplitDiffGo 0 fl (diffKw ++ rest) = [] :: reSplitDiffGo 0 false rest := by
  subst hfl
  rw [show diffKw ++ rest = 'd' :: ("iff ".data ++ rest) from rfl, reSplitDiffGo_zero_cons,
    if_pos ⟨rfl, List.isPrefixOf_iff_prefix.mpr ⟨rest, by rfl⟩⟩]
  rfl

theorem reSplitDiffGo_boundary (bp rest : List Char) (fl : Bool)
    (hstart : fl = true → ¬ diffKw <+: bp ++ '\n' :: (diffKw ++ rest))
    (hin : ∀ x y, bp = x ++ '\n' :: y → ¬ diffKw <+: y ++ '\n' :: (diffKw ++ rest)) :
    reSplitDiffGo 0 fl (bp ++ '\n' :: (diffKw ++ rest)) =
      (bp ++ ['\n']) :: reSplitDiffGo 0 false rest := by
  induction bp generalizing fl with
  | nil =>
    have hcond : ¬ (fl = true ∧ diffKw.isPrefixOf ('\n' :: (diffKw ++ rest))) := by
      rintro ⟨-, hp⟩
      rcases List.cons_prefix_cons.mp (List.isPrefixOf_iff_prefix.mp hp) with ⟨h0, -⟩
      exact absurd h0 (by decide)
    have h1 : reSplitDiffGo 0 (decide (('\n' : Char) = '\n')) (diffKw ++ rest) =
        [] :: reSplitDiffGo 0 false rest :=
      reSplitDiffGo_start rest _ (by decide)
    rw [List.nil_append, reSplitDiffGo_zero_cons, if_neg hcond, h1]
    rfl
  | cons c bpp ih =>
    have hstart2 : decide (c = '\n') = true →
        ¬ diffKw <+: bpp ++ '\n' :: (diffKw ++ rest) := by
      intro hdec
      rw [decide_eq_true_iff] at hdec
      exact hin [] bpp (by rw [hdec]; rfl)
    have hin2 : ∀ x y, bpp = x ++ '\n' :: y →
        ¬ diffKw <+: y ++ '\n' :: (diffKw ++ rest) :=
      fun x y hxy => hin (c :: x) y (by rw [hxy]; rfl)
    have hcond : ¬ (fl = true ∧
        diffKw.isPrefixOf (c :: (bpp ++ '\n' :: (diffKw ++ rest)))) := by
      rintro ⟨hfl, hp⟩
      exact hstart hfl (by simpa using List.isPrefixOf_iff_prefix.mp hp)
    rw [List.cons_append, reSplitDiffGo_zero_cons, if_neg hcond, ih _ hstart2 hin2]
    rfl

theorem reSplitDiffGo_all (b : List Char) (fl : Bool)
    (hstart : fl = true → ¬ diffKw <+: b)
    (hin : ∀ x y, b = x ++ '\n' :: y → ¬ diffKw <+: y) :
    reSplitDiffGo 0 fl b = [b] := by
  induction b generalizing fl with
  | nil => rfl
  | cons c bs ih =>
    have hstart2 : decide (c = '\n') = true → ¬ diffKw <+: bs := by
      intro hdec
      rw [decide_eq_true_iff] at hdec
      exact hin [] bs (by rw [hdec]; rfl)
    have hin2 : ∀ x y, bs = x ++ '\n' :: y → ¬ diffKw <+: y :=
      fun x y hxy => hin (c :: x) y (by rw [hxy]; rfl)
    have hcond : ¬ (fl = true ∧ diffKw.isPrefixOf (c :: bs)) := by
      rintro ⟨hfl, hp⟩
      exact hstart hfl (List.isPrefixOf_iff_prefix.mp hp)
    rw [reSplitDiffGo_zero_cons, if_neg hcond, ih _ hstart2 hin2]

/-! ## Synthetic well-formed patches -/

/-- One header-listed file of a synthetic raw patch: the `:`-stripped
mode/sha/status prefix and the filename. -/
structure SynthEntry where
  modeInfo : List Char
  name : List Char

/-- Raw-header segment of one entry as the `[\n\0]:` split recovers it. -/
def segText (e : SynthEntry) : List Char := e.modeInfo ++ '\x00' :: e.name

/-- Raw-header text of one entry as git emits it with `-z`: colon, prefix,
NUL, name, NUL. -/
def entryText (e : SynthEntry) : List Char := ':' :: segText e ++ ['\x00']

/-- Concatenated raw-header text of all entries. -/
def entriesText : List SynthEntry → List Char
  | [] => []
  | e :: es => entryText e ++ entriesText es

/-- Raw-header text of all entries without the final NUL (which the
`"\0diff "` split consumes). -/
def entriesHeadText : List SynthEntry → List Char
  | [] => []
  | [e] => ':' :: segText e
  | e :: es => ':' :: segText e ++ '\x00' :: entriesHeadText es

/-- Diff-section text: each per-file block prefixed with its `diff `
keyword. -/
def bodiesText : List (List Char) → List Char
  | [] => []
  | b :: bs => diffKw ++ b ++ bodiesText bs

/-- One synthetic commit chunk: commit info and message, one raw header
line per entry, one diff block per body. -/
structure SynthCommit where
  info : List Char
  entries : List SynthEntry
  bodies : List (List Char)

/-- Chunk text as `git show --raw -z --patch` emits it. -/
def mkChunk (c : SynthCommit) : List Char :=
  c.info ++ '\n' :: (entriesText c.entries ++ bodiesText c.bodies)

/-- Whole patch text: chunks joined by the `"\0commit "` boundary. -/
def mkPatch : List SynthCommit → List Char
  | [] => []
  | [c] => mkChunk c
  | c :: cs => mkChunk c ++ sepCommit ++ mkPatch cs

/-- Well-formed entry: no NUL or newline inside either field, a non-empty
name that does not start with a colon (so the raw-header split cannot fire
inside the segment) and does not look like one of the split keywords. -/
def WfEntry (e : SynthEntry) : Prop :=
  '\x00' ∉ e.modeInfo ∧ '\n' ∉ e.modeInfo ∧
  '\x00' ∉ e.name ∧ '\n' ∉ e.name ∧
  e.name ≠ [] ∧ e.name.head? ≠ some ':' ∧
  ¬ "commit ".data <+: e.name ∧ ¬ diffKw <+: e.name

/-- Well-formed diff block: starts with the `--git ` remainder of the diff
line, ends with a newline, holds no NUL and no embedded line starting with
`diff `. -/
def WfBody (b : List Char) : Prop :=
  "--git ".data <+: b ∧ b.getLast? = some '\n' ∧ '\x00' ∉ b ∧
  ¬ HasSub ('\n' :: diffKw) b

/-- Well-formed commit info/message text: NUL-free, not starting with a
colon, without a newline-colon pair. -/
def WfInfo (i : List Char) : Prop :=
  '\x00' ∉ i ∧ i.head? ≠ some ':' ∧ rxFreeB i = true

/-- Well-formed synthetic commit. -/
def WfCommit (c : SynthCommit) : Prop :=
  WfInfo c.info ∧ (∀ e ∈ c.entries, WfEntry e) ∧ (∀ b ∈ c.bodies, WfBody b)

instance (e : SynthEntry) : Decidable (WfEntry e) := by
  unfold WfEntry
  infer_instance

instance (b : List Char) : Decidable (WfBody b) := by
  unfold WfBody
  infer_instance

instance (i : List Char) : Decidable (WfInfo i) := by
  unfold WfInfo
  infer_instance

instance (c : SynthCommit) : Decidable (WfCommit c) := by
  unfold WfCommit
  infer_instance

/-- Filemode decoded from an entry's reconstructed raw header line, when
the decode succeeds. -/
def decodedMode (e : SynthEntry) : Option Filemode :=
  match _parse_patch_header_line (':' :: segText e) with
  | .ok (_, md) => some md
  | .error _ => none

/-- Record the parser produces for one (entry, diff block) pair: `none` when
the filename is excluded or the block has no hunk. -/
def expectedRecord (exclusionRegexes : List (List Char → Bool))
    (eb : SynthEntry × List Char) : Option StringScannable :=
  match decodedMode eb.1 with
  | none => none
  | some md =>
    if is_filepath_excluded eb.1.name exclusionRegexes then none
    else (extractContent eb.2).map (fun ct => ⟨eb.1.name, ct, md⟩)

/-- Records of one synthetic commit: positional pairing of entries and
bodies, truncated to the shorter side, each pair contributing its record. -/
def expectedRecords (exclusionRegexes : List (List Char → Bool))
    (c : SynthCommit) : List StringScannable :=
  (c.entries.zip c.bodies).filterMap (expectedRecord exclusionRegexes)

/-- Records of a whole synthetic patch, in chunk order. -/
def expectedAll (exclusionRegexes : List (List Char → Bool)) :
    List SynthCommit → List StringScannable
  | [] => []
  | c :: cs => expectedRecords exclusionRegexes c ++ expectedAll exclusionRegexes cs

/-- Total record of one pair, for use under hypotheses making decode and
extraction succeed. -/
def pairRecord (eb : SynthEntry × List Char) : StringScannable :=
  ⟨eb.1.name, (extractContent eb.2).getD [], (decodedMode eb.1).getD Filemode.MODIFY⟩

theorem rxFreeB_of_noSep {s : List Char} (h : ∀ c ∈ s, isHdrSepChar c = false) :
    rxFreeB s = true := by
  induction s with
  | nil => rfl
  | cons c cs ih =>
    cases cs with
    | nil => rfl
    | cons c2 cs2 =>
      rw [rxFreeB, Bool.and_eq_true]
      refine ⟨?_, ih (fun x hx => h x (List.mem_cons_of_mem c hx))⟩
      rw [h c (List.mem_cons_self _ _)]
      rfl

theorem rxFreeB_append {u v : List Char} (hu : ∀ c ∈ u, isHdrSepChar c = false)
    (hv : rxFreeB v = true) : rxFreeB (u ++ v) = true := by
  induction u with
  | nil => exact hv
  | cons c us ih =>
    have ih2 := ih (fun x hx => hu x (List.mem_cons_of_mem c hx))
    cases h2 : us ++ v with
    | nil =>
      rw [List.cons_append, h2]
      rfl
    | cons w0 ws =>
      rw [List.cons_append, h2, rxFreeB, Bool.and_eq_true]
      refine ⟨?_, h2 ▸ ih2⟩
      rw [hu c (List.mem_cons_self _ _)]
      rfl

theorem noSepChar_of_wf {s : List Char} (h0 : '\x00' ∉ s) (h1 : '\n' ∉ s) :
    ∀ c ∈ s, isHdrSepChar c = false := by
  intro c hc
  rw [isHdrSepChar, Bool.or_eq_false_iff]
  constructor
  · rw [decide_eq_false_iff_not]
    rintro rfl
    exact h1 hc
  · rw [decide_eq_false_iff_not]
    rintro rfl
    exact h0 hc

theorem rxFreeB_segText {e : SynthEntry} (hwf : WfEntry e) : rxFreeB (segText e) = true := by
  obtain ⟨hm0, hm1, hn0, hn1, hne, hcol, -, -⟩ := hwf
  rw [segText]
  refine rxFreeB_append (noSepChar_of_wf hm0 hm1) ?_
  cases hn : e.name with
  | nil => rfl
  | cons n0 ns =>
    rw [rxFreeB, Bool.and_eq_true]
    constructor
    · rw [Bool.not_eq_true', Bool.and_eq_false_iff]
      right
      rw [decide_eq_false_iff_not]
      intro h
      exact hcol (by rw [hn, h]; rfl)
    · exact rxFreeB_of_noSep (noSepChar_of_wf (hn ▸ hn0) (hn ▸ hn1))

theorem entriesHeadText_chain (es : List SynthEntry) (hes : es ≠ [])
    (hwf : ∀ e ∈ es, WfEntry e) :
    ∃ X, entriesHeadText es = ':' :: X ∧ splitRxHeader X = es.map segText := by
  induction es with
  | nil => exact absurd rfl hes
  | cons e es ih =>
    cases es with
    | nil =>
      refine ⟨segText e, rfl, ?_⟩
      rw [List.map_singleton, splitRxHeader_all _
        (rxFreeB_segText (hwf e (List.mem_cons_self _ _)))]
    | cons e2 es2 =>
      obtain ⟨X2, hX2, hsplit2⟩ := ih (by simp)
        (fun x hx => hwf x (List.mem_cons_of_mem e hx))
      refine ⟨segText e ++ '\x00' :: entriesHeadText (e2 :: es2), rfl, ?_⟩
      rw [hX2, splitRxHeader_boundary _ _ _ (by rfl)
        (rxFreeB_segText (hwf e (List.mem_cons_self _ _))), hsplit2]
      rfl

theorem entriesText_eq_head (es : List SynthEntry) (hes : es ≠ []) :
    entriesText es = entriesHeadText es ++ ['\x00'] := by
  induction es with
  | nil => exact absurd rfl hes
  | cons e es ih =>
    cases es with
    | nil =>
      show entryText e ++ entriesText [] = (':' :: segText e) ++ ['\x00']
      simp [entryText, entriesText]
    | cons e2 es2 =>
      rw [entriesText, ih (by simp)]
      show entryText e ++ (entriesHeadText (e2 :: es2) ++ ['\x00']) =
        (':' :: (segText e ++ '\x00' :: entriesHeadText (e2 :: es2))) ++ ['\x00']
      simp [entryText, List.append_assoc]

theorem entriesHeadText_head (e : SynthEntry) (es : List SynthEntry) :
    ∃ X, entriesHeadText (e :: es) = ':' :: X := by
  cases es with
  | nil => exact ⟨segText e, rfl⟩
  | cons e2 es2 => exact ⟨segText e ++ '\x00' :: entriesHeadText (e2 :: es2), rfl⟩

theorem entriesText_noSub (w : List Char) (hwne : w ≠ []) (hw0 : '\x00' ∉ w)
    (hwc : w.head? ≠ some ':')
    (es : List SynthEntry)
    (hn : ∀ e ∈ es, '\x00' ∉ e.modeInfo ∧ '\x00' ∉ e.name ∧ ¬ w <+: e.name)
    (tail : List Char) (htail : ¬ HasSub ('\x00' :: w) tail) (htp : ¬ w <+: tail) :
    ¬ HasSub ('\x00' :: w) (entriesText es ++ tail) := by
  induction es with
  | nil => exact htail
  | cons e es ih =>
    obtain ⟨hm0, hn0, hnp⟩ := hn e (List.mem_cons_self _ _)
    have hrest := ih (fun x hx => hn x (List.mem_cons_of_mem e hx))
    have hshape : entriesText (e :: es) ++ tail =
        (':' :: e.modeInfo) ++ '\x00' :: (e.name ++ '\x00' :: (entriesText es ++ tail)) := by
      rw [entriesText, entryText, segText]
      simp [List.append_assoc]
    rw [hshape]
    refine noSub_append_headFree ?_ ?_
    · intro hmem
      rcases List.mem_cons.mp hmem with h | h
      · exact absurd h.symm (by decide)
      · exact hm0 h
    · refine noSub_cons_head (not_prefix_append_mid hw0 hnp) ?_
      refine noSub_append_headFree hn0 ?_
      refine noSub_cons_head ?_ hrest
      intro hp
      cases es with
      | nil => exact htp (by simpa using hp)
      | cons e2 es2 =>
        cases hw : w with
        | nil => exact hwne hw
        | cons w0 ws =>
          rw [hw] at hp
          rw [show entriesText (e2 :: es2) ++ tail =
            ':' :: (segText e2 ++ ['\x00'] ++ (entriesText es2 ++ tail)) from by
              rw [entriesText, entryText]; simp [List.append_assoc]] at hp
          rcases List.cons_prefix_cons.mp hp with ⟨h0, -⟩
          exact hwc (by rw [hw, h0]; rfl)

theorem entriesHeadText_noSub (w : List Char) (hwne : w ≠ []) (hw0 : '\x00' ∉ w)
    (hwc : w.head? ≠ some ':')
    (es : List SynthEntry)
    (hn : ∀ e ∈ es, '\x00' ∉ e.modeInfo ∧ '\x00' ∉ e.name ∧ ¬ w <+: e.name) :
    ¬ HasSub ('\x00' :: w) (entriesHeadText es) := by
  induction es with
  | nil => exact hasSub_nil (by simp)
  | cons e es ih =>
    obtain ⟨hm0, hn0, hnp⟩ := hn e (List.mem_cons_self _ _)
    have hrest := ih (fun x hx => hn x (List.mem_cons_of_mem e hx))
    cases es with
    | nil =>
      have heq : entriesHeadText [e] = (':' :: e.modeInfo) ++ '\x00' :: e.name := by
        show ':' :: segText e = _
        simp [segText]
      rw [heq]
      refine noSub_append_headFree ?_ ?_
      · intro hmem
        rcases List.mem_cons.mp hmem with h | h
        · exact absurd h.symm (by decide)
        · exact hm0 h
      · exact noSub_cons_head hnp (noSub_noHead hn0)
    | cons e2 es2 =>
      have heq : entriesHeadText (e :: e2 :: es2) =
          (':' :: e.modeInfo) ++ '\x00' :: (e.name ++ '\x00' :: entriesHeadText (e2 :: es2)) := by
        show ':' :: (segText e ++ '\x00' :: entriesHeadText (e2 :: es2)) = _
        simp [segText, List.append_assoc]
      rw [heq]
      refine noSub_append_headFree ?_ ?_
      · intro hmem
        rcases List.mem_cons.mp hmem with h | h
        · exact absurd h.symm (by decide)
        · exact hm0 h
      · refine noSub_cons_head (not_prefix_append_mid hw0 hnp) ?_
        refine noSub_append_headFree hn0 ?_
        refine noSub_cons_head ?_ hrest
        intro hp
        obtain ⟨X, hX⟩ := entriesHeadText_head e2 es2
        cases hw : w with
        | nil => exact hwne hw
        | cons w0 ws =>
          rw [hw, hX] at hp
          rcases List.cons_prefix_cons.mp hp with ⟨h0, -⟩
          exact hwc (by rw [hw, h0]; rfl)

theorem eq_append_singleton_of_getLast {l : List Char} {a : Char}
    (h : l.getLast? = some a) : ∃ lp, l = lp ++ [a] := by
  induction l with
  | nil => simp at h
  | cons c cs ih =>
    cases cs with
    | nil =>
      refine ⟨[], ?_⟩
      simp only [List.getLast?_singleton, Option.some.injEq] at h
      rw [h]
      rfl
    | cons c2 cs2 =>
      rw [List.getLast?_cons_cons] at h
      obtain ⟨lp, hlp⟩ := ih h
      exact ⟨c :: lp, by rw [hlp]; rfl⟩

theorem wfBody_head {b : List Char} (hb : WfBody b) : ∃ bb, b = '-' :: bb := by
  rcases hb.1 with ⟨t, ht⟩
  exact ⟨"-git ".data ++ t, by rw [← ht]; rfl⟩

theorem reSplitDiff_bodies (bs : List (List Char)) (b : List Char) (fl : Bool)
    (hb : WfBody b) (hbs : ∀ x ∈ bs, WfBody x) :
    reSplitDiffGo 0 fl (b ++ bodiesText bs) = b :: bs := by
  induction bs generalizing b fl with
  | nil =>
    rw [bodiesText, List.append_nil]
    refine reSplitDiffGo_all b fl ?_ ?_
    · intro _ hp
      obtain ⟨bb, rfl⟩ := wfBody_head hb
      rcases List.cons_prefix_cons.mp hp with ⟨h0, -⟩
      exact absurd h0 (by decide)
    · intro x y hxy hp
      rcases hp with ⟨t2, ht2⟩
      exact hb.2.2.2 ⟨x, t2, by rw [hxy, ← ht2]; simp⟩
  | cons b2 bs2 ih =>
    obtain ⟨bp, rfl⟩ := eq_append_singleton_of_getLast hb.2.1
    have hshape : (bp ++ ['\n']) ++ bodiesText (b2 :: bs2) =
        bp ++ '\n' :: (diffKw ++ (b2 ++ bodiesText bs2)) := by
      rw [bodiesText]
      simp [List.append_assoc]
    rw [hshape, reSplitDiffGo_boundary, ih b2 false (hbs b2 (List.mem_cons_self _ _))
      (fun x hx => hbs x (List.mem_cons_of_mem b2 hx))]
    · intro hfl hp
      obtain ⟨bb, hbb⟩ := wfBody_head hb
      cases bp with
      | nil =>
        rcases hb.1 with ⟨t, ht⟩
        have := congrArg List.length ht
        simp at this
      | cons p0 pp =>
        have hp0 : p0 = '-' := (List.cons.inj hbb).1
        have hdk : diffKw = 'd' :: "iff ".data := rfl
        rw [hdk] at hp
        rcases List.cons_prefix_cons.mp hp with ⟨h0, -⟩
        exact absurd (h0.trans hp0) (by decide)
    · intro x y hxy
      refine not_prefix_append_mid (by decide) ?_
      rintro ⟨t, ht⟩
      exact hb.2.2.2 ⟨x, t ++ ['\n'], by rw [hxy, ← ht]; simp⟩

theorem rstripNul_append_ne {u : List Char} {c : Char} (hc : c ≠ '\x00') :
    rstripNul (u ++ [c]) = u ++ [c] := by
  rw [rstripNul, List.reverse_append]
  simp [List.dropWhile_cons, hc]

theorem noOverlap_singleton (c : Char) : NoOverlap [c] := by
  intro k h1 h2
  simp at h2
  omega

theorem entry_split {e : SynthEntry} (hwf : WfEntry e) :
    splitOnSub ['\x00'] (rstripNul (':' :: segText e)) = [':' :: e.modeInfo, e.name] := by
  obtain ⟨hm0, -, hn0, -, hne, -, -, -⟩ := hwf
  rcases e.name.eq_nil_or_concat with h | ⟨np, nl, hnl⟩
  · exact absurd h hne
  rw [List.concat_eq_append] at hnl
  have hlast : nl ≠ '\x00' := by
    intro h
    exact hn0 (h ▸ hnl ▸ List.mem_append_right np (List.mem_singleton.mpr rfl))
  have hshape : ':' :: segText e = ((':' :: e.modeInfo) ++ '\x00' :: np) ++ [nl] := by
    rw [segText, hnl]
    simp [List.append_assoc]
  have hstrip : rstripNul (':' :: segText e) = ':' :: segText e := by
    rw [hshape]
    exact rstripNul_append_ne hlast
  rw [hstrip, show ':' :: segText e = (':' :: e.modeInfo) ++ ['\x00'] ++ e.name from by
    rw [segText]; simp [List.append_assoc]]
  rw [splitOnSub, splitGo_append _ _ (by simp) (noOverlap_singleton _)
    (noSub_noHead (by
      intro hmem
      rcases List.mem_cons.mp hmem with h | h
      · exact absurd h.symm (by decide)
      · exact hm0 h))]
  rw [splitGo_all (by simp) (noSub_noHead hn0)]

theorem decode_entry {e : SynthEntry} {md : Filemode} (hwf : WfEntry e)
    (hmd : decodedMode e = some md) :
    _parse_patch_header_line (':' :: segText e) = .ok (e.name, md) := by
  have hsplit := entry_split hwf
  rw [decodedMode] at hmd
  unfold _parse_patch_header_line at hmd ⊢
  rw [hsplit] at hmd ⊢
  dsimp only at hmd ⊢
  split_ifs at hmd ⊢ <;> simp_all

theorem pairZip_entries (rxs : List (List Char → Bool)) (entries : List SynthEntry)
    (bodies : List (List Char)) (hwf : ∀ e ∈ entries, WfEntry e)
    (hdec : ∀ e ∈ entries, (decodedMode e).isSome) :
    pairZip rxs (entries.map segText) bodies =
      .ok ((entries.zip bodies).filterMap (expectedRecord rxs)) := by
  induction entries generalizing bodies with
  | nil => rfl
  | cons e es ih =>
    obtain ⟨md, hmd⟩ := Option.isSome_iff_exists.mp (hdec e (List.mem_cons_self _ _))
    have hdecode := decode_entry (hwf e (List.mem_cons_self _ _)) hmd
    rw [List.map_cons, pairZip, hdecode]
    cases bodies with
    | nil => rfl
    | cons b bs =>
      dsimp only
      rw [ih bs (fun x hx => hwf x (List.mem_cons_of_mem e hx))
        (fun x hx => hdec x (List.mem_cons_of_mem e hx))]
      rw [List.zip_cons_cons, List.filterMap_cons]
      dsimp only
      rw [show expectedRecord rxs (e, b) = (match decodedMode e with
        | none => none
        | some md =>
          if is_filepath_excluded e.name rxs then none
          else (extractContent b).map (fun ct => ⟨e.name, ct, md⟩)) from rfl, hmd]
      by_cases hex : is_filepath_excluded e.name rxs
      · rw [if_pos hex]
        simp only [hex, if_true]
      · rw [if_neg hex]
        simp only [hex, if_false]
        cases hext : extractContent b <;> simp

theorem bodiesText_noNul {bs : List (List Char)} (hbs : ∀ b ∈ bs, '\x00' ∉ b) :
    '\x00' ∉ bodiesText bs := by
  induction bs with
  | nil => simp [bodiesText]
  | cons b bs2 ih =>
    rw [bodiesText]
    intro hmem
    rcases List.mem_append.mp hmem with h | h
    · rcases List.mem_append.mp h with h2 | h2
      · exact absurd h2 (by decide)
      · exact hbs b (List.mem_cons_self _ _) h2
    · exact ih (fun x hx => hbs x (List.mem_cons_of_mem b hx)) h

theorem wfEntry_noSub_conds {w : List Char} (hwp : ∀ e2 : SynthEntry, WfEntry e2 →
    ¬ w <+: e2.name) {es : List SynthEntry} (hwf : ∀ e ∈ es, WfEntry e) :
    ∀ e ∈ es, '\x00' ∉ e.modeInfo ∧ '\x00' ∉ e.name ∧ ¬ w <+: e.name := by
  intro e he
  obtain ⟨hm0, -, hn0, -, -, -, -, -⟩ := hwf e he
  exact ⟨hm0, hn0, hwp e (hwf e he)⟩

theorem chunk_noSub_commit (c : SynthCommit) (hwf : WfCommit c) :
    ¬ HasSub sepCommit (mkChunk c) := by
  obtain ⟨⟨hi0, -, -⟩, hes, hbs⟩ := hwf
  rw [mkChunk, show sepCommit = '\x00' :: "commit ".data from rfl]
  refine noSub_append_headFree hi0 ?_
  refine noSub_append_headFree (u := ['\n']) (by decide) ?_
  refine entriesText_noSub _ (by decide) (by decide) (by decide) _
    (wfEntry_noSub_conds (fun e2 h2 => h2.2.2.2.2.2.2.1) hes) _
    (noSub_noHead (bodiesText_noNul (fun b hb => (hbs b hb).2.2.1))) ?_
  cases hb : c.bodies with
  | nil =>
    rw [bodiesText]
    intro hp
    have := hp.length_le
    simp at this
  | cons b bs =>
    rw [bodiesText]
    intro hp
    rcases List.cons_prefix_cons.mp (show ('c' :: "ommit ".data) <+:
      'd' :: ("iff ".data ++ (b ++ bodiesText bs)) from hp) with ⟨h0, -⟩
    exact absurd h0 (by decide)

theorem headerText_noSub (c : SynthCommit) (hwf : WfCommit c) :
    ¬ HasSub sepDiff (c.info ++ '\n' :: entriesHeadText c.entries) := by
  obtain ⟨⟨hi0, -, -⟩, hes, -⟩ := hwf
  rw [show sepDiff = '\x00' :: diffKw from rfl]
  refine noSub_append_headFree hi0 ?_
  refine noSub_append_headFree (u := ['\n']) (by decide) ?_
  exact entriesHeadText_noSub _ (by decide) (by decide) (by decide) _
    (wfEntry_noSub_conds (fun e2 h2 => h2.2.2.2.2.2.2.2) hes)

theorem mkChunk_decomp (c : SynthCommit) (e : SynthEntry) (es : List SynthEntry)
    (b : List Char) (bs : List (List Char))
    (hent : c.entries = e :: es) (hbod : c.bodies = b :: bs) :
    mkChunk c = (c.info ++ '\n' :: entriesHeadText c.entries) ++ sepDiff
      ++ (b ++ bodiesText bs) := by
  rw [mkChunk, hent, hbod, entriesText_eq_head _ (by simp),
    show sepDiff = '\x00' :: diffKw from rfl, bodiesText]
  simp [List.append_assoc]

theorem headerLines_chunk (c : SynthCommit) (e : SynthEntry) (es : List SynthEntry)
    (hwf : WfCommit c) (hent : c.entries = e :: es) :
    headerLines (c.info ++ '\n' :: entriesHeadText c.entries) =
      some (c.entries.map segText) := by
  obtain ⟨⟨-, hicol, hirx⟩, hes, -⟩ := hwf
  obtain ⟨X, hX, hsplit⟩ := entriesHeadText_chain c.entries (by rw [hent]; simp)
    (by rw [hent] at hes ⊢; exact hes)
  have hsr : splitRxHeader (c.info ++ '\n' :: entriesHeadText c.entries) =
      c.info :: c.entries.map segText := by
    rw [hX, splitRxHeader_boundary _ _ _ (by rfl) hirx, hsplit]
  cases hi : c.info with
  | nil =>
    rw [hi] at hsr
    rw [List.nil_append] at hsr ⊢
    rw [headerLines.eq_def]
    dsimp only
    rw [if_neg (by decide), hsr]
    rfl
  | cons i0 it =>
    rw [hi] at hsr
    have hi0 : i0 ≠ ':' := by
      rw [hi] at hicol
      simpa using hicol
    rw [List.cons_append, headerLines.eq_def]
    dsimp only
    rw [if_neg hi0, show i0 :: (it ++ '\n' :: entriesHeadText c.entries) =
      (i0 :: it) ++ '\n' :: entriesHeadText c.entries from rfl, hsr]
    rfl

theorem noOverlap_sepDiff : NoOverlap sepDiff := by
  intro k h1 h2
  have hl : sepDiff.length = 6 := rfl
  rw [hl] at h2
  interval_cases k <;> decide

theorem noOverlap_sepCommit : NoOverlap sepCommit := by
  intro k h1 h2
  have hl : sepCommit.length = 8 := rfl
  rw [hl] at h2
  interval_cases k <;> decide

theorem chunk_step (rxs : List (List Char → Bool)) (c : SynthCommit)
    (hwf : WfCommit c) (hdec : ∀ e ∈ c.entries, (decodedMode e).isSome) :
    (splitOnce sepDiff (mkChunk c) = none ∧ expectedRecords rxs c = []) ∨
    (∃ hdr rt, splitOnce sepDiff (mkChunk c) = some (hdr, rt) ∧
      chunkRecords rxs hdr rt = .ok (expectedRecords rxs c)) := by
  obtain ⟨hinfo, hes, hbs⟩ := hwf
  cases hent : c.entries with
  | nil =>
    left
    constructor
    · refine splitOnce_none (by decide) ?_
      rw [mkChunk, hent, entriesText, List.nil_append,
        show sepDiff = '\x00' :: diffKw from rfl]
      refine noSub_append_headFree hinfo.1 ?_
      refine noSub_append_headFree (u := ['\n']) (by decide) ?_
      exact noSub_noHead (bodiesText_noNul (fun b hb => (hbs b hb).2.2.1))
    · rw [expectedRecords, hent]
      rfl
  | cons e es =>
    cases hbod : c.bodies with
    | nil =>
      left
      constructor
      · refine splitOnce_none (by decide) ?_
        rw [mkChunk, hent, hbod, bodiesText, List.append_nil,
          show sepDiff = '\x00' :: diffKw from rfl]
        refine noSub_append_headFree hinfo.1 ?_
        refine noSub_append_headFree (u := ['\n']) (by decide) ?_
        have hall : ∀ x ∈ c.entries, WfEntry x := hes
        rw [hent] at hall
        have hfree := entriesText_noSub diffKw (by decide) (by decide) (by decide)
          (e :: es) (wfEntry_noSub_conds (fun e2 h2 => h2.2.2.2.2.2.2.2) hall) []
          (hasSub_nil (by simp))
          (by intro hp; exact absurd (List.prefix_nil.mp hp) (by decide))
        simpa using hfree
      · rw [expectedRecords, hbod]
        simp
    | cons b bs =>
      right
      refine ⟨c.info ++ '\n' :: entriesHeadText c.entries, b ++ bodiesText bs, ?_, ?_⟩
      · rw [mkChunk_decomp c e es b bs hent hbod]
        exact splitOnce_append _ _ (by decide) noOverlap_sepDiff
          (headerText_noSub c ⟨hinfo, hes, hbs⟩)
      · rw [chunkRecords, headerLines_chunk c e es ⟨hinfo, hes, hbs⟩ hent]
        dsimp only
        have hrd : reSplitDiff (b ++ bodiesText bs) = b :: bs := by
          rw [reSplitDiff]
          refine reSplitDiff_bodies bs b true ?_ ?_
          · exact hbs b (by rw [hbod]; exact List.mem_cons_self _ _)
          · intro x hx
            exact hbs x (by rw [hbod]; exact List.mem_cons_of_mem b hx)
        rw [hrd, pairZip_entries rxs c.entries (b :: bs) hes hdec,
          expectedRecords, hbod]

theorem goChunk (rxs : List (List Char → Bool)) (c : SynthCommit)
    (rest : List (List Char)) (more : List StringScannable)
    (hwf : WfCommit c) (hdec : ∀ e ∈ c.entries, (decodedMode e).isSome)
    (hrest : parsePatchGo rxs rest = .ok more) :
    parsePatchGo rxs (mkChunk c :: rest) = .ok (expectedRecords rxs c ++ more) := by
  rw [parsePatchGo]
  rcases chunk_step rxs c hwf hdec with ⟨hnone, hempty⟩ | ⟨hdr, rt, hsome, hrecs⟩
  · rw [hnone, hrest, hempty]
    rfl
  · rw [hsome]
    dsimp only
    rw [hrecs]
    dsimp only
    rw [hrest]

theorem parse_mkPatch_go (rxs : List (List Char → Bool)) :
    ∀ cs : List SynthCommit, (∀ c ∈ cs, WfCommit c) →
      (∀ c ∈ cs, ∀ e ∈ c.entries, (decodedMode e).isSome) →
      parsePatchGo rxs (splitOnSub sepCommit (mkPatch cs)) =
        .ok (expectedAll rxs cs) := by
  intro cs
  induction cs with
  | nil =>
    intro _ _
    rfl
  | cons c cs2 ih =>
    intro hwf hdec
    have hwfc := hwf c (List.mem_cons_self _ _)
    have hdecc := hdec c (List.mem_cons_self _ _)
    have hwf2 : ∀ x ∈ cs2, WfCommit x := fun x hx => hwf x (List.mem_cons_of_mem c hx)
    have hdec2 : ∀ x ∈ cs2, ∀ e ∈ x.entries, (decodedMode e).isSome :=
      fun x hx => hdec x (List.mem_cons_of_mem c hx)
    cases cs2 with
    | nil =>
      rw [show mkPatch [c] = mkChunk c from rfl,
        show splitOnSub sepCommit (mkChunk c) = [mkChunk c] from
          splitGo_all (by decide) (chunk_noSub_commit c hwfc),
        goChunk rxs c [] [] hwfc hdecc rfl]
      rw [expectedAll, expectedAll, List.append_nil]
    | cons c2 cs3 =>
      have hsplit : splitOnSub sepCommit (mkPatch (c :: c2 :: cs3)) =
          mkChunk c :: splitOnSub sepCommit (mkPatch (c2 :: cs3)) := by
        rw [show mkPatch (c :: c2 :: cs3) =
          mkChunk c ++ sepCommit ++ mkPatch (c2 :: cs3) from rfl]
        exact splitGo_append _ _ (by decide) noOverlap_sepCommit
          (chunk_noSub_commit c hwfc)
      rw [hsplit, goChunk rxs c _ _ hwfc hdecc (ih hwf2 hdec2)]
      rfl

/-- Evaluation of the full parser on a well-formed synthetic patch: one
record per positionally paired (header entry, diff block), skipping
excluded names and hunkless blocks. -/
theorem parse_mkPatch (excl : Option (List (List Char → Bool)))
    (cs : List SynthCommit) (hwf : ∀ c ∈ cs, WfCommit c)
    (hdec : ∀ c ∈ cs, ∀ e ∈ c.entries, (decodedMode e).isSome) :
    _parse_patch (mkPatch cs) excl = .ok (expectedAll (excl.getD []) cs) := by
  rw [_parse_patch]
  exact parse_mkPatch_go (excl.getD []) cs hwf hdec

theorem filterMap_eq_map_of_some {α β : Type} (f : α → Option β) (g : α → β)
    (l : List α) (h : ∀ x ∈ l, f x = some (g x)) : l.filterMap f = l.map g := by
  induction l with
  | nil => rfl
  | cons a as ih =>
    rw [List.filterMap_cons, h a (List.mem_cons_self _ _), List.map_cons,
      ih (fun x hx => h x (List.mem_cons_of_mem a hx))]

theorem expectedRecord_total {e : SynthEntry} {b : List Char}
    (hdec : (decodedMode e).isSome) (hcont : (extractContent b).isSome) :
    expectedRecord [] (e, b) = some (pairRecord (e, b)) := by
  obtain ⟨md, hmd⟩ := Option.isSome_iff_exists.mp hdec
  obtain ⟨ct, hct⟩ := Option.isSome_iff_exists.mp hcont
  rw [expectedRecord]
  dsimp only
  rw [hmd, hct, pairRecord]
  dsimp only
  rw [hmd, hct]
  rfl

theorem expectedRecords_full (c : SynthCommit)
    (hdec : ∀ e ∈ c.entries, (decodedMode e).isSome)
    (hcont : ∀ b ∈ c.bodies, (extractContent b).isSome) :
    expectedRecords [] c = (c.entries.zip c.bodies).map pairRecord := by
  rw [expectedRecords]
  refine filterMap_eq_map_of_some _ _ _ ?_
  rintro ⟨e, b⟩ hmem
  obtain ⟨he, hb⟩ := List.of_mem_zip hmem
  exact expectedRecord_total (hdec e he) (hcont b hb)

/-- C2: for every well-formed synthetic patch whose commit chunks list N
files in total, with one diff block per header entry (equal counts), each
block containing a hunk boundary, and no exclusion patterns, the parse
yields exactly N records in header order, the i-th record pairing the
filename and filemode decoded from the i-th header line with the content
extracted from the i-th diff block. -/
theorem parse_round_trip (cs : List SynthCommit)
    (hwf : ∀ c ∈ cs, WfCommit c)
    (hlen : ∀ c ∈ cs, c.entries.length = c.bodies.length)
    (hdec : ∀ c ∈ cs, ∀ e ∈ c.entries, (decodedMode e).isSome)
    (hcont : ∀ c ∈ cs, ∀ b ∈ c.bodies, (extractContent b).isSome) :
    _parse_patch (mkPatch cs) none =
      .ok ((cs.map (fun c => (c.entries.zip c.bodies).map pairRecord)).flatten) ∧
    ((cs.map (fun c => (c.entries.zip c.bodies).map pairRecord)).flatten).length =
      (cs.map (fun c => c.entries.length)).sum := by
  have hall : expectedAll [] cs =
      (cs.map (fun c => (c.entries.zip c.bodies).map pairRecord)).flatten := by
    induction cs with
    | nil => rfl
    | cons c cs2 ih =>
      rw [expectedAll, List.map_cons, List.flatten_cons,
        expectedRecords_full c (hdec c (List.mem_cons_self _ _))
          (hcont c (List.mem_cons_self _ _)),
        ih (fun x hx => hwf x (List.mem_cons_of_mem c hx))
          (fun x hx => hlen x (List.mem_cons_of_mem c hx))
          (fun x hx => hdec x (List.mem_cons_of_mem c hx))
          (fun x hx => hcont x (List.mem_cons_of_mem c hx))]
  constructor
  · rw [← hall]
    simpa using parse_mkPatch none cs hwf hdec
  · rw [List.length_flatten]
    congr 1
    rw [List.map_map]
    refine List.map_congr_left ?_
    intro c hc
    simp only [Function.comp_apply, List.length_map, List.length_zip]
    have := hlen c hc
    omega

/-- Concrete two-file commit used by the C2 witness. -/
def witCommit : SynthCommit :=
  ⟨"commit abc\nAuthor: A <a@b>\nDate: D\n".data,
   [⟨"100644 100644 aaa bbb M".data, "f1.txt".data⟩,
    ⟨"100644 100644 ccc ddd A".data, "f2.txt".data⟩],
   ["--git a/f1.txt b/f1.txt\nindex 1\n@@ -1 +1 @@\n+x\n".data,
    "--git a/f2.txt b/f2.txt\nindex 2\n@@ -0 +1 @@\n+y\n".data]⟩

/-- C2 witness: a synthetic patch with one commit and two files parses to
exactly those two records, in order. -/
theorem parse_round_trip_witness :
    (∀ c ∈ [witCommit], WfCommit c) ∧
    _parse_patch (mkPatch [witCommit]) none =
      .ok [⟨"f1.txt".data, "@@ -1 +1 @@\n+x\n".data, Filemode.MODIFY⟩,
           ⟨"f2.txt".data, "@@ -0 +1 @@\n+y\n".data, Filemode.NEW⟩] := by
  have h := parse_round_trip [witCommit] (by decide) (by decide) (by decide) (by decide)
  refine ⟨by decide, ?_⟩
  rw [h.1]
  decide

/-- C10: when, inside one commit chunk, the number of decodable header
entries differs from the number of diff blocks, the parser performs no
consistency check and raises no error: the output is the positional
pairing truncated to the length of the shorter sequence, and the surplus
entries of the longer side are silently ignored. -/
theorem count_mismatch_truncates (c : SynthCommit)
    (hwf : WfCommit c)
    (_hmis : c.entries.length ≠ c.bodies.length)
    (hdec : ∀ e ∈ c.entries, (decodedMode e).isSome)
    (hcont : ∀ b ∈ c.bodies, (extractContent b).isSome) :
    _parse_patch (mkPatch [c]) none =
      .ok ((c.entries.zip c.bodies).map pairRecord) ∧
    ((c.entries.zip c.bodies).map pairRecord).length =
      min c.entries.length c.bodies.length := by
  constructor
  · have h := parse_mkPatch none [c] (by simpa using hwf) (by simpa using hdec)
    rw [h]
    rw [show expectedAll (Option.getD none []) [c] = expectedRecords [] c ++ [] from rfl,
      List.append_nil, expectedRecords_full c hdec hcont]
  · rw [List.length_map, List.length_zip]

/-- Concrete commit with three header entries and one diff block, used by
the C10 witness. -/
def witCommit10 : SynthCommit :=
  ⟨"info\n".data,
   [⟨"100644 100644 aaa bbb M".data, "a.txt".data⟩,
    ⟨"100644 100644 ccc ddd M".data, "b.txt".data⟩,
    ⟨"100644 100644 eee fff M".data, "c.txt".data⟩],
   ["--git a/a.txt b/a.txt\nindex 1\n@@ -1 +1 @@\n+q\n".data]⟩

/-- C10 witness: three header entries, one diff block; the parse succeeds
with exactly one record and the two surplus entries are ignored. -/
theorem count_mismatch_truncates_witness :
    witCommit10.entries.length = 3 ∧ witCommit10.bodies.length = 1 ∧
    _parse_patch (mkPatch [witCommit10]) none =
      .ok [⟨"a.txt".data, "@@ -1 +1 @@\n+q\n".data, Filemode.MODIFY⟩] := by
  have h := count_mismatch_truncates witCommit10 (by decide) (by decide)
    (by decide) (by decide)
  refine ⟨by decide, by decide, ?_⟩
  rw [h.1]
  decide

/-- C4 counterexample: a diff block whose FIRST line starts with `@@`.
The block does contain a line starting with `@@`, yet the extractor
(which searches for the substring `"\n@@"`) finds nothing and the parser
yields no record for the file, contrary to the claim. -/
theorem hunk_first_line_counterexample :
    "@@".data <+: "@@ -1 +1 @@\n+secret\n".data ∧
    extractContent "@@ -1 +1 @@\n+secret\n".data = none ∧
    _parse_patch "i\n:0 M\x00f\x00diff @@ -1 +1 @@\n+secret\n".data none = .ok [] := by
  refine ⟨by decide, by decide, by decide⟩

/-- C4 amended: the extractor keys on the two-character boundary
newline-`@@`, i.e. on a NON-FIRST line starting with `@@`.  When such a
boundary exists, the yielded content is the suffix of the block beginning
at the earliest such line, `@@` included and the preceding newline
excluded; when none exists (even if the block's first line itself starts
with `@@`), no record is yielded for that file, while the records of the
sibling files of the same commit are still produced. -/
theorem content_extraction_amended :
    (∀ d ct, extractContent d = some ct →
      "@@".data <+: ct ∧
      ∃ pre, d = pre ++ '\n' :: ct ∧
        (∀ pre2 ct2, d = pre2 ++ '\n' :: ct2 → "@@".data <+: ct2 →
          pre.length ≤ pre2.length)) ∧
    (∀ d, extractContent d = none ↔ ¬ HasSub nlAtAt d) ∧
    (∀ e b, extractContent b = none → expectedRecord [] (e, b) = none) ∧
    (∀ e b md ct, decodedMode e = some md → extractContent b = some ct →
      expectedRecord [] (e, b) = some ⟨e.name, ct, md⟩) ∧
    (∀ c : SynthCommit, WfCommit c → (∀ e ∈ c.entries, (decodedMode e).isSome) →
      _parse_patch (mkPatch [c]) none =
        .ok ((c.entries.zip c.bodies).filterMap (expectedRecord []))) := by
  refine ⟨?_, ?_, ?_, ?_, ?_⟩
  · intro d ct hct
    rw [extractContent] at hct
    cases hidx : findSubIdx nlAtAt d with
    | none => rw [hidx] at hct; exact absurd hct (by simp)
    | some i =>
      rw [hidx] at hct
      obtain rfl : d.drop (i + 1) = ct := by simpa using hct
      obtain ⟨hpre, hmin⟩ := findSubIdx_spec hidx
      rcases hpre with ⟨t, ht⟩
      have hdropi : d.drop i = '\n' :: '@' :: '@' :: t := by rw [← ht]; rfl
      have hlt : i < d.length := by
        by_contra hge
        have : d.drop i = [] := List.drop_eq_nil_of_le (by omega)
        rw [this] at hdropi
        exact List.noConfusion hdropi
      have hdrop1 : d.drop (i + 1) = '@' :: '@' :: t := by
        have h2 : d.drop (i + 1) = (d.drop i).tail := by
          rw [List.tail_drop]
        rw [h2, hdropi]
        rfl
      refine ⟨⟨t, by rw [hdrop1]; rfl⟩, d.take i, ?_, ?_⟩
      · rw [hdrop1, show ('\n' :: '@' :: '@' :: t : List Char) = d.drop i from hdropi.symm]
        exact (List.take_append_drop i d).symm
      · intro pre2 ct2 hd2 hct2
        by_contra hlt2
        refine hmin pre2.length (by
          have : (d.take i).length = i := by
            rw [List.length_take]
            omega
          omega) ?_
        have hdrop2 : d.drop pre2.length = '\n' :: ct2 := by
          rw [hd2, List.drop_left]
        rcases hct2 with ⟨t2, ht2⟩
        refine ⟨t2, ?_⟩
        rw [hdrop2, ← ht2]
        rfl
  · intro d
    rw [extractContent]
    constructor
    · intro hnone hsub
      rw [hasSub_iff_findSubIdx] at hsub
      obtain ⟨i, hi⟩ := Option.isSome_iff_exists.mp hsub
      rw [hi] at hnone
      exact absurd hnone (by simp)
    · intro hsub
      cases hidx : findSubIdx nlAtAt d with
      | none => rfl
      | some i =>
        exact absurd ((hasSub_iff_findSubIdx nlAtAt d).mpr (by rw [hidx]; rfl)) hsub
  · intro e b hb
    rw [expectedRecord]
    dsimp only
    cases hdm : decodedMode e with
    | none => rfl
    | some md => rw [hb]; rfl
  · intro e b md ct hmd hct
    rw [expectedRecord]
    dsimp only
    rw [hmd, hct]
    rfl
  · intro c hwf hdec
    have h := parse_mkPatch none [c] (by simpa using hwf) (by simpa using hdec)
    rw [h, show expectedAll (Option.getD none []) [c] =
      expectedRecords [] c ++ [] from rfl, List.append_nil, expectedRecords]

/-- Concrete commit whose first diff block has no hunk boundary (a pure
rename) while its second does, used by the C4 witness. -/
def witCommit4 : SynthCommit :=
  ⟨"info\n".data,
   [⟨"100644 100644 aaa bbb R100".data, "f1.txt".data⟩,
    ⟨"100644 100644 ccc ddd M".data, "f2.txt".data⟩],
   ["--git a/old.txt b/f1.txt\nsimilarity index 100%\n".data,
    "--git a/f2.txt b/f2.txt\nindex 2\n@@ -1 +1 @@\n+q\n".data]⟩

/-- C4 witness: content extraction keeps the suffix from the first
newline-`@@` boundary, and a hunkless first block is skipped while the
sibling file is still produced. -/
theorem content_extraction_amended_witness :
    extractContent "index 1\n@@ -1 +1 @@\n+s\n".data =
      some "@@ -1 +1 @@\n+s\n".data ∧
    "@@".data <+: "@@ -1 +1 @@\n+s\n".data ∧
    extractContent "--git a/old.txt b/f1.txt\nsimilarity index 100%\n".data = none ∧
    _parse_patch (mkPatch [witCommit4]) none =
      .ok [⟨"f2.txt".data, "@@ -1 +1 @@\n+q\n".data, Filemode.MODIFY⟩] := by
  have h := content_extraction_amended
  refine ⟨by decide, (h.1 ("index 1\n@@ -1 +1 @@\n+s\n".data)
    ("@@ -1 +1 @@\n+s\n".data) (by decide)).1, by decide, ?_⟩
  rw [h.2.2.2.2 witCommit4 (by decide) (by decide)]
  decide
